import Mathlib

/-!
Verification of the ERP-to-Magento data mapper (src/index.js).

The JavaScript engine is embedded shallowly:

* JavaScript values are modelled by `Value` (numbers as integers; the
  claims under study do not depend on floating-point behaviour).
* A JavaScript object is an association list `Obj` in insertion order;
  property assignment on an existing key keeps its position, assignment
  of a new key appends, matching JavaScript enumeration order.
* `lodash.set` on dot-separated object paths is `setPathObj`: it walks
  the path, descends into existing object values and replaces a missing
  or non-object intermediate by a fresh empty object, then assigns at
  the final key.
* A source instruction is either a field-reference string or a resolver
  function; a resolver returns `Except String Value`, covering both a
  synchronous throw and a rejected awaitable.
* `transform` follows the control flow of `MagentoMapper.transform`:
  the synchronous loop body of each async arrow function runs up to its
  first `await`, so field-reference entries commit immediately, in
  declaration order, while resolver entries are deferred; the deferred
  continuations are applied afterwards, modelling microtask resumption
  in task-creation order (the order in which same-tick resolutions
  settle).  `Promise.all` fails with the first rejection; the SKU
  validation uses JavaScript truthiness of `payload.product.sku`.
-/

namespace ErpMagento

/-- Model of a JavaScript value.  Numbers are integers: none of the
verified properties depends on floating-point representation. -/
inductive Value where
  | vNull : Value
  | vUndef : Value
  | vBool : Bool → Value
  | vNum : Int → Value
  | vStr : String → Value
  | vArr : List Value → Value
  | vObj : List (String × Value) → Value
deriving Repr

/-- A JavaScript object: fields in insertion order. -/
abbrev Obj := List (String × Value)

/-- Property read `src[k]`: a missing key yields `undefined`. -/
def lookupField (src : Obj) (k : String) : Value :=
  (src.lookup k).getD Value.vUndef

/-- The engine's absence test: `value === null || typeof value === 'undefined'`. -/
def isAbsent : Value → Bool
  | Value.vNull => true
  | Value.vUndef => true
  | _ => false

/-- JavaScript truthiness, as used by `!magentoPayload.product.sku`. -/
def truthy : Value → Bool
  | Value.vNull => false
  | Value.vUndef => false
  | Value.vBool b => b
  | Value.vNum n => n != 0
  | Value.vStr s => s != ""
  | Value.vArr _ => true
  | Value.vObj _ => true

/-- A source instruction: a field-reference string, or a resolver
function of the whole source record (`typeof sourceInstruction === 'function'`).
The `Except` result models a value, or a thrown / rejected error. -/
inductive Instruction where
  | fieldRef : String → Instruction
  | resolver : (Obj → Except String Value) → Instruction

/-- One configuration section: destination key to instruction, in
declaration (object-insertion) order. -/
abbrev Entries := List (String × Instruction)

/-- The mapping configuration: named sections. -/
abbrev Mapping := List (String × Entries)

/-- The mapper class: it stores the mapping given to the constructor. -/
structure MagentoMapper where
  mapping : Mapping

/-- Factory function `createMapper`. -/
def createMapper (m : Mapping) : MagentoMapper := ⟨m⟩

/-- Split a string at `'.'` characters (the path syntax `lodash.set`
uses for the destination paths occurring here). -/
def splitDotAux : List Char → List Char → List String
  | [], acc => [String.mk acc.reverse]
  | c :: cs, acc =>
    if c = '.' then String.mk acc.reverse :: splitDotAux cs []
    else splitDotAux cs (c :: acc)

/-- Dot-splitting of a destination path string. -/
def splitDot (s : String) : List String := splitDotAux s.data []

/-- Property assignment `obj[k] = v`: an existing key keeps its
position, a new key is appended. -/
def setKey : Obj → String → Value → Obj
  | [], k, v => [(k, v)]
  | (k', v') :: rest, k, v =>
    if k' = k then (k, v) :: rest else (k', v') :: setKey rest k v

/-- Model of `lodash.set` on an object along a dot-path: descend through
existing object values, replacing a missing or non-object intermediate
with a fresh empty object, and assign at the last key. -/
def setPathObj (fs : Obj) : List String → Value → Obj
  | [], _ => fs
  | [k], v => setKey fs k v
  | k :: k2 :: ks, v =>
    let inner : Obj :=
      match fs.lookup k with
      | some (Value.vObj gs) => gs
      | _ => []
    setKey fs k (Value.vObj (setPathObj inner (k2 :: ks) v))

/-- Read a nested value along a dot-path (plain property chains). -/
def lookupPath (fs : Obj) : List String → Option Value
  | [] => none
  | [k] => fs.lookup k
  | k :: k2 :: ks =>
    match fs.lookup k with
    | some (Value.vObj gs) => lookupPath gs (k2 :: ks)
    | _ => none

/-- One record of the `custom_attributes` list. -/
def attrRecord (code : String) (v : Value) : Value :=
  Value.vObj [("attribute_code", Value.vStr code), ("value", v)]

/-- The push `magentoPayload.product.custom_attributes.push(record)`. -/
def pushCustomAttr (fs : Obj) (code : String) (v : Value) : Obj :=
  match fs.lookup "product" with
  | some (Value.vObj pfs) =>
    match pfs.lookup "custom_attributes" with
    | some (Value.vArr xs) =>
      setKey fs "product"
        (Value.vObj (setKey pfs "custom_attributes"
          (Value.vArr (xs ++ [attrRecord code v]))))
    | _ => fs
  | _ => fs

/-- The payload as initialised at the top of `transform`. -/
def initialPayload : Obj :=
  [("product", Value.vObj [("custom_attributes", Value.vArr [])])]

/-- The hardcoded section iteration list of `transform`. -/
def sectionsList : List String := ["core", "extensionAttributes", "customAttributes"]

/-- The section read `this.mapping[section]`, an empty section when the
key is missing or falsy. -/
def getSection (m : Mapping) (s : String) : Entries :=
  (m.lookup s).getD []

/-- The destination path of a non-custom-attribute entry, i.e. the
dot-split of `product.` + (`extension_attributes.` for the extension
section) + the destination key.  Splitting the concatenation at the
dot boundaries equals prepending the split prefix segments. -/
def destPath (sec magentoPath : String) : List String :=
  "product" ::
    (if sec = "extensionAttributes" then "extension_attributes" :: splitDot magentoPath
     else splitDot magentoPath)

/-- Commit one resolved, non-absent value to the payload. -/
def commit (payload : Obj) (sec mPath : String) (v : Value) : Obj :=
  if sec = "customAttributes" then pushCustomAttr payload mPath v
  else setPathObj payload (destPath sec mPath) v

/-- A deferred resolver continuation: section, destination key, and the
resolver's outcome on the source record. -/
abbrev Deferred := String × String × Except String Value

/-- The synchronous part of one loop iteration: a field reference
resolves and (if non-absent) commits immediately; a resolver is called
on the source record and its continuation is deferred. -/
def stepA (src : Obj) (sec : String) (st : Obj × List Deferred)
    (e : String × Instruction) : Obj × List Deferred :=
  match e.2 with
  | Instruction.fieldRef name =>
    let v := lookupField src name
    if isAbsent v then st else (commit st.1 sec e.1 v, st.2)
  | Instruction.resolver f => (st.1, st.2 ++ [(sec, e.1, f src)])

/-- The synchronous double loop of `transform`. -/
def phaseA (m : Mapping) (src : Obj) : Obj × List Deferred :=
  sectionsList.foldl
    (fun st sec => (getSection m sec).foldl (stepA src sec) st)
    (initialPayload, [])

/-- The rejection `Promise.all` reports: the first failed deferred
resolution. -/
def firstError (ds : List Deferred) : Option String :=
  ds.findSome? fun d =>
    match d.2.2 with
    | Except.error e => some e
    | Except.ok _ => none

/-- Run the deferred continuations: each successful non-absent value is
committed; a failed one commits nothing. -/
def applyDeferred (p : Obj) (ds : List Deferred) : Obj :=
  ds.foldl
    (fun p d =>
      match d.2.2 with
      | Except.ok v => if isAbsent v then p else commit p d.1 d.2.1 v
      | Except.error _ => p) p

/-- The SKU validation error message. -/
def skuMsg : String := "Mapping failed to generate a SKU for the product."

/-- The value read by `magentoPayload.product.sku`. -/
def productSku (p : Obj) : Value :=
  match p.lookup "product" with
  | some (Value.vObj pfs) => lookupField pfs "sku"
  | _ => Value.vUndef

/-- The method `MagentoMapper.transform`: run the synchronous loop, join all
deferred resolutions (failing with the first rejection), validate the
SKU by truthiness, and return the payload. -/
def transform (mapper : MagentoMapper) (src : Obj) : Except String Obj :=
  let r := phaseA mapper.mapping src
  match firstError r.2 with
  | some e => Except.error e
  | none =>
    let p := applyDeferred r.1 r.2
    if truthy (productSku p) then Except.ok p else Except.error skuMsg

/-! ### Observation and specification helpers -/

/-- Whether the segment list `a` is an initial segment of `b`. -/
def leadsInto : List String → List String → Bool
  | [], _ => true
  | _ :: _, [] => false
  | a :: as, b :: bs => if a = b then leadsInto as bs else false

/-- Two paths are disjoint when neither is an initial segment of the
other; writes at one cannot be observed at the other. -/
def pathsDisjoint (a b : List String) : Bool :=
  !leadsInto a b && !leadsInto b a

/-- The path of the flat attribute list. -/
def pcPath : List String := ["product", "custom_attributes"]

/-- The payload location a commit writes to. -/
def commitPath (sec mPath : String) : List String :=
  if sec = "customAttributes" then pcPath else destPath sec mPath

/-- The outcome of resolving one instruction on one source record. -/
def resolveOf : Instruction → Obj → Except String Value
  | Instruction.fieldRef name, src => Except.ok (lookupField src name)
  | Instruction.resolver f, src => f src

/-- The payload effect of the synchronous part of one loop iteration. -/
def payloadStepA (src : Obj) (sec : String) (p : Obj) (e : String × Instruction) : Obj :=
  match e.2 with
  | Instruction.fieldRef name =>
    let v := lookupField src name
    if isAbsent v then p else commit p sec e.1 v
  | Instruction.resolver _ => p

/-- The deferred continuations produced by one section's entries. -/
def defsOfEntries (src : Obj) (sec : String) (l : Entries) : List Deferred :=
  l.filterMap fun e =>
    match e.2 with
    | Instruction.resolver f => some (sec, e.1, f src)
    | Instruction.fieldRef _ => none

/-- The payload after the synchronous loop. -/
def payloadA (m : Mapping) (src : Obj) : Obj :=
  sectionsList.foldl
    (fun p sec => (getSection m sec).foldl (payloadStepA src sec) p)
    initialPayload

/-- All deferred continuations, in creation order. -/
def defsA (m : Mapping) (src : Obj) : List Deferred :=
  (sectionsList.map fun sec => defsOfEntries src sec (getSection m sec)).flatten

/-- Remove the first entry with a given destination key from a section. -/
def eraseEntry : Entries → String → Entries
  | [], _ => []
  | (k', i) :: rest, k =>
    if k' = k then rest else (k', i) :: eraseEntry rest k

/-- Remove the first entry with destination key `k` from section `s`. -/
def removeEntry (m : Mapping) (s k : String) : Mapping :=
  m.map fun sec => if sec.1 = s then (sec.1, eraseEntry sec.2 k) else sec

/-- The destination keys of a section. -/
def sectionKeys (l : Entries) : List String := l.map Prod.fst

/-- Well-formedness inherited from JavaScript object literals: within
each iterated section, destination keys are distinct. -/
def wfKeys (m : Mapping) : Prop :=
  ∀ sec ∈ sectionsList, (sectionKeys (getSection m sec)).Nodup

/-- All destination paths of path-addressed (core / extension) entries. -/
def pairPaths (m : Mapping) : List (List String) :=
  (getSection m "core").map (fun e => destPath "core" e.1)
    ++ (getSection m "extensionAttributes").map (fun e => destPath "extensionAttributes" e.1)

/-- The attribute codes of the output's `custom_attributes` list. -/
def attrCodes (p : Obj) : List String :=
  match lookupPath p pcPath with
  | some (Value.vArr xs) =>
    xs.filterMap fun x =>
      match x with
      | Value.vObj fs =>
        match fs.lookup "attribute_code" with
        | some (Value.vStr c) => some c
        | _ => none
      | _ => none
  | _ => []

/-- Attribute codes of a transform result (empty on error). -/
def attrCodesOfResult : Except String Obj → List String
  | Except.ok p => attrCodes p
  | Except.error _ => []

/-- The records the flat list receives from field-reference entries of
the flat-attribute section, in declaration order. -/
def fieldRefRecords (src : Obj) (l : Entries) : List Value :=
  l.filterMap fun e =>
    match e.2 with
    | Instruction.fieldRef n =>
      let v := lookupField src n
      if isAbsent v then none else some (attrRecord e.1 v)
    | Instruction.resolver _ => none

/-- The records the flat list receives from resolver entries of the
flat-attribute section, in declaration order. -/
def resolverRecords (src : Obj) (l : Entries) : List Value :=
  l.filterMap fun e =>
    match e.2 with
    | Instruction.resolver f =>
      match f src with
      | Except.ok v => if isAbsent v then none else some (attrRecord e.1 v)
      | Except.error _ => none
    | Instruction.fieldRef _ => none

/-- The proposition that `e` is an error some resolver of the
configuration produces on `src`. -/
def resolverErrorOf (m : Mapping) (src : Obj) (e : String) : Prop :=
  ∃ sec ∈ sectionsList, ∃ k f,
    (k, Instruction.resolver f) ∈ getSection m sec ∧ f src = Except.error e

/-- Two source records are indistinguishable to a configuration: they
agree on every referenced field and every resolver treats them alike. -/
def agreesOn (m : Mapping) (src src' : Obj) : Prop :=
  ∀ sec ∈ sectionsList, ∀ e ∈ getSection m sec,
    match e.2 with
    | Instruction.fieldRef n => lookupField src n = lookupField src' n
    | Instruction.resolver f => f src = f src'

/-! ### Concrete configurations and records for the scenarios -/

/-- A configuration mapping only the SKU from the source key `id`. -/
def mCore : Mapping := [("core", [("sku", Instruction.fieldRef "id")])]

/-- A source record with a string id. -/
def srcX1 : Obj := [("id", Value.vStr "X1")]

/-- A source record whose id is the number `0`. -/
def srcZero : Obj := [("id", Value.vNum 0)]

/-- A resolver that always rejects. -/
def resBoom : Obj → Except String Value := fun _ => Except.error "boom"

/-- A configuration whose second core entry rejects. -/
def mBoom : Mapping :=
  [("core", [("sku", Instruction.fieldRef "id"), ("name", Instruction.resolver resBoom)])]

/-- A resolver that immediately produces the string `A`. -/
def resA : Obj → Except String Value := fun _ => Except.ok (Value.vStr "A")

/-- A flat-attribute section mixing a resolver entry (declared first)
with a field-reference entry (declared second). -/
def mMixed : Mapping :=
  [("core", [("sku", Instruction.fieldRef "id")]),
   ("customAttributes", [("a", Instruction.resolver resA), ("b", Instruction.fieldRef "f")])]

/-- Source record for the mixed flat-attribute scenario. -/
def srcMixed : Obj := [("id", Value.vStr "I"), ("f", Value.vStr "B")]

/-- A configuration declaring a section name outside the three
reference names, holding an entry that would resolve. -/
def mExtra : Mapping :=
  [("attributes", [("note", Instruction.fieldRef "id")]),
   ("core", [("sku", Instruction.fieldRef "id")])]

/-- An extension-attribute configuration with a dotted destination key. -/
def mExt : Mapping :=
  [("core", [("sku", Instruction.fieldRef "id")]),
   ("extensionAttributes", [("stock_item.qty", Instruction.fieldRef "inventory")])]

/-- Source record with an inventory quantity. -/
def srcInv : Obj := [("id", Value.vStr "X1"), ("inventory", Value.vNum 7)]

/-- A configuration with no `core` section at all. -/
def mNoCore : Mapping := [("customAttributes", [("c", Instruction.fieldRef "x")])]

/-- Source record for the missing-core scenario. -/
def srcXv : Obj := [("x", Value.vStr "v")]

/-- The record `srcX1` extended by a key no instruction reads. -/
def srcXtra : Obj := [("id", Value.vStr "X1"), ("extra", Value.vNum 1)]

/-- A resolver returning the absent sentinel `null`. -/
def resNull : Obj → Except String Value := fun _ => Except.ok Value.vNull

/-- A configuration whose extension entry resolves to `null`. -/
def mAbsent : Mapping :=
  [("core", [("sku", Instruction.fieldRef "id")]),
   ("extensionAttributes", [("gone", Instruction.resolver resNull)])]

/-- The nested-path lookup of a transform result (`none` on error). -/
def lookupPathOfResult : Except String Obj → List String → Option Value
  | Except.ok p, q => lookupPath p q
  | Except.error _, _ => none

/-- The structural invariant of the payload: the root holds the
`product` object and that object has the `custom_attributes` key. -/
def productShape (p : Obj) : Prop :=
  ∃ pfs, p.lookup "product" = some (Value.vObj pfs)
    ∧ ∃ v, pfs.lookup "custom_attributes" = some v

/-! ### Basic lemmas about the object operations -/

theorem splitDotAux_ne_nil : ∀ (cs acc : List Char), splitDotAux cs acc ≠ []
  | [], _ => by simp [splitDotAux]
  | c :: cs, acc => by
    by_cases h : c = '.'
    · simp [splitDotAux, h]
    · simpa [splitDotAux, h] using splitDotAux_ne_nil cs (c :: acc)

theorem splitDot_ne_nil (s : String) : splitDot s ≠ [] :=
  splitDotAux_ne_nil s.data []

theorem destPath_ne_nil (sec mPath : String) : destPath sec mPath ≠ [] := by
  simp [destPath]

theorem destPath_head (sec mPath : String) :
    ∃ r rs, destPath sec mPath = "product" :: r :: rs := by
  unfold destPath
  by_cases h : sec = "extensionAttributes"
  · exact ⟨"extension_attributes", splitDot mPath, by simp [h]⟩
  · obtain ⟨r, rs, hr⟩ := List.exists_cons_of_ne_nil (splitDot_ne_nil mPath)
    exact ⟨r, rs, by simp [h, hr]⟩

theorem lookup_setKey_self : ∀ (fs : Obj) (k : String) (v : Value),
    (setKey fs k v).lookup k = some v
  | [], k, v => by simp [setKey]
  | (k', v') :: rest, k, v => by
    by_cases h : k' = k
    · simp [setKey, h]
    · have hb : (k == k') = false := beq_eq_false_iff_ne.mpr (Ne.symm h)
      simpa [setKey, h, List.lookup, hb] using lookup_setKey_self rest k v

theorem lookup_setKey_ne : ∀ (fs : Obj) (k k' : String) (v : Value), k' ≠ k →
    (setKey fs k v).lookup k' = fs.lookup k'
  | [], k, k', v, h => by
    have hb : (k' == k) = false := beq_eq_false_iff_ne.mpr h
    simp [setKey, List.lookup, hb]
  | (k₀, v₀) :: rest, k, k', v, h => by
    by_cases h0 : k₀ = k
    · subst h0
      have hb : (k' == k₀) = false := beq_eq_false_iff_ne.mpr h
      simp [setKey, List.lookup, hb]
    · by_cases h1 : k' = k₀
      · simp [setKey, h0, List.lookup, h1]
      · have hb : (k' == k₀) = false := beq_eq_false_iff_ne.mpr h1
        simpa [setKey, h0, List.lookup, hb] using lookup_setKey_ne rest k k' v h

theorem lookup_setKey_isSome (fs : Obj) (k k' : String) (v : Value)
    (h : (fs.lookup k').isSome) : ((setKey fs k v).lookup k').isSome := by
  by_cases hk : k' = k
  · subst hk; simp [lookup_setKey_self]
  · rwa [lookup_setKey_ne fs k k' v hk]

theorem lookupPath_nil : ∀ (q : List String), lookupPath [] q = none
  | [] => rfl
  | [_] => rfl
  | _ :: _ :: _ => rfl

theorem leadsInto_cons_same (k : String) (as bs : List String) :
    leadsInto (k :: as) (k :: bs) = leadsInto as bs := by
  simp [leadsInto]

theorem pathsDisjoint_cons_same (k : String) (as bs : List String) :
    pathsDisjoint (k :: as) (k :: bs) = pathsDisjoint as bs := by
  simp [pathsDisjoint, leadsInto_cons_same]

theorem pathsDisjoint_cons_ne (k k' : String) (as bs : List String) (h : k ≠ k') :
    pathsDisjoint (k :: as) (k' :: bs) = true := by
  simp [pathsDisjoint, leadsInto, h, Ne.symm h]

/-- A write at `w` is invisible at any path disjoint from `w`. -/
theorem lookupPath_setPathObj_disjoint : ∀ (w : List String) (fs : Obj)
    (q : List String) (v : Value), pathsDisjoint w q = true →
    lookupPath (setPathObj fs w v) q = lookupPath fs q := by
  intro w
  induction w with
  | nil => intro fs q v _; rfl
  | cons k ws ih =>
    intro fs q v h
    cases q with
    | nil => simp [pathsDisjoint, leadsInto] at h
    | cons k' qs =>
      by_cases hk : k = k'
      · subst hk
        rw [pathsDisjoint_cons_same] at h
        cases ws with
        | nil => simp [pathsDisjoint, leadsInto] at h
        | cons w2 ws' =>
          cases qs with
          | nil => simp [pathsDisjoint, leadsInto] at h
          | cons q2 qs' =>
            have hd : pathsDisjoint (w2 :: ws') (q2 :: qs') = true := h
            simp only [setPathObj, lookupPath, lookup_setKey_self]
            rw [ih _ (q2 :: qs') v hd]
            cases hfk : fs.lookup k with
            | none => simp [lookupPath_nil]
            | some u =>
              cases u with
              | vObj gs => simp
              | vNull => simp [lookupPath_nil]
              | vUndef => simp [lookupPath_nil]
              | vBool b => simp [lookupPath_nil]
              | vNum n => simp [lookupPath_nil]
              | vStr s => simp [lookupPath_nil]
              | vArr xs => simp [lookupPath_nil]
      · have hset : ∀ (gs : Obj) (u : Value), (setKey gs k u).lookup k' = gs.lookup k' :=
          fun gs u => lookup_setKey_ne gs k k' u (Ne.symm hk)
        cases ws with
        | nil =>
          cases qs with
          | nil => simp [setPathObj, lookupPath, hset]
          | cons q2 qs' => simp [setPathObj, lookupPath, hset]
        | cons w2 ws' =>
          cases qs with
          | nil => simp [setPathObj, lookupPath, hset]
          | cons q2 qs' => simp [setPathObj, lookupPath, hset]

/-- A write at `w` is observed at `w`. -/
theorem lookupPath_setPathObj_self : ∀ (w : List String) (fs : Obj) (v : Value),
    w ≠ [] → lookupPath (setPathObj fs w v) w = some v := by
  intro w
  induction w with
  | nil => intro fs v h; exact absurd rfl h
  | cons k ws ih =>
    intro fs v _
    cases ws with
    | nil => simp [setPathObj, lookupPath, lookup_setKey_self]
    | cons w2 ws' =>
      simp only [setPathObj, lookupPath, lookup_setKey_self]
      exact ih _ v (by simp)

/-- Pushing an attribute record is invisible at any path disjoint from
the flat list's path. -/
theorem setKey_lookupPath_ne (fs : Obj) (k : String) (u : Value) (k' : String)
    (qs : List String) (hk : k' ≠ k) :
    lookupPath (setKey fs k u) (k' :: qs) = lookupPath fs (k' :: qs) := by
  have hs : (setKey fs k u).lookup k' = fs.lookup k' :=
    lookup_setKey_ne fs k k' u hk
  cases qs with
  | nil => simpa [lookupPath] using hs
  | cons q2 qs' => simp [lookupPath, hs]

theorem lookupPath_pushCustomAttr_disjoint (fs : Obj) (code : String) (v : Value)
    (q : List String) (h : pathsDisjoint pcPath q = true) :
    lookupPath (pushCustomAttr fs code v) q = lookupPath fs q := by
  cases hfp : fs.lookup "product" with
  | none => simp [pushCustomAttr, hfp]
  | some u =>
    cases u with
    | vObj pfs =>
      cases hca : pfs.lookup "custom_attributes" with
      | none => simp [pushCustomAttr, hfp, hca]
      | some a =>
        cases a with
        | vArr xs =>
          have hpush : pushCustomAttr fs code v
              = setKey fs "product" (Value.vObj (setKey pfs "custom_attributes"
                  (Value.vArr (xs ++ [attrRecord code v])))) := by
            simp [pushCustomAttr, hfp, hca]
          rw [hpush]
          cases q with
          | nil => rfl
          | cons k' qs =>
            by_cases hk : k' = "product"
            · subst hk
              rw [show pcPath = "product" :: ["custom_attributes"] from rfl,
                pathsDisjoint_cons_same] at h
              cases qs with
              | nil => simp [pathsDisjoint, leadsInto] at h
              | cons q2 qs' =>
                by_cases hq2 : q2 = "custom_attributes"
                · subst hq2
                  rw [pathsDisjoint_cons_same] at h
                  cases qs' with
                  | nil => simp [pathsDisjoint, leadsInto] at h
                  | cons q3 qs'' => simp [pathsDisjoint, leadsInto] at h
                · simp only [lookupPath, lookup_setKey_self, hfp]
                  exact setKey_lookupPath_ne pfs "custom_attributes" _ q2 qs' hq2
            · exact setKey_lookupPath_ne fs "product" _ k' qs hk
        | vNull => simp [pushCustomAttr, hfp, hca]
        | vUndef => simp [pushCustomAttr, hfp, hca]
        | vBool b => simp [pushCustomAttr, hfp, hca]
        | vNum n => simp [pushCustomAttr, hfp, hca]
        | vStr s => simp [pushCustomAttr, hfp, hca]
        | vObj gs => simp [pushCustomAttr, hfp, hca]
    | vNull => simp [pushCustomAttr, hfp]
    | vUndef => simp [pushCustomAttr, hfp]
    | vBool b => simp [pushCustomAttr, hfp]
    | vNum n => simp [pushCustomAttr, hfp]
    | vStr s => simp [pushCustomAttr, hfp]
    | vArr xs => simp [pushCustomAttr, hfp]

/-- Pushing appends one record to the flat list. -/
theorem lookupPath_pushCustomAttr_pc (fs : Obj) (code : String) (v : Value)
    (xs : List Value) (h : lookupPath fs pcPath = some (Value.vArr xs)) :
    lookupPath (pushCustomAttr fs code v) pcPath
      = some (Value.vArr (xs ++ [attrRecord code v])) := by
  unfold pushCustomAttr
  cases hfp : fs.lookup "product" with
  | none => simp [pcPath, lookupPath, hfp] at h
  | some u =>
    cases u with
    | vObj pfs =>
      have h' : pfs.lookup "custom_attributes" = some (Value.vArr xs) := by
        simpa [pcPath, lookupPath, hfp] using h
      simp [h', pcPath, lookupPath, lookup_setKey_self]
    | vNull => simp [pcPath, lookupPath, hfp] at h
    | vUndef => simp [pcPath, lookupPath, hfp] at h
    | vBool b => simp [pcPath, lookupPath, hfp] at h
    | vNum n => simp [pcPath, lookupPath, hfp] at h
    | vStr s => simp [pcPath, lookupPath, hfp] at h
    | vArr ys => simp [pcPath, lookupPath, hfp] at h

/-- A commit is invisible at any path disjoint from its target. -/
theorem lookupPath_commit_disjoint (p : Obj) (sec mPath : String) (v : Value)
    (q : List String) (h : pathsDisjoint (commitPath sec mPath) q = true) :
    lookupPath (commit p sec mPath v) q = lookupPath p q := by
  unfold commit
  unfold commitPath at h
  by_cases hs : sec = "customAttributes"
  · rw [if_pos hs] at h ⊢
    exact lookupPath_pushCustomAttr_disjoint p mPath v q h
  · rw [if_neg hs] at h ⊢
    exact lookupPath_setPathObj_disjoint _ p q v h

/-- Fold preservation: if every step preserves the observation at `q`,
the whole fold does. -/
theorem foldl_lookup_preserve {α : Type} (step : Obj → α → Obj) (q : List String) :
    ∀ (l : List α) (p : Obj),
    (∀ a ∈ l, ∀ p', lookupPath (step p' a) q = lookupPath p' q) →
    lookupPath (l.foldl step p) q = lookupPath p q
  | [], p, _ => rfl
  | a :: l, p, h => by
    rw [List.foldl_cons,
      foldl_lookup_preserve step q l (step p a) (fun b hb => h b (List.mem_cons_of_mem a hb)),
      h a (List.mem_cons_self a l)]

/-! ### Separating the synchronous loop into payload effect and deferred list -/

theorem foldl_stepA_sep (src : Obj) (sec : String) :
    ∀ (l : Entries) (p : Obj) (d : List Deferred),
    l.foldl (stepA src sec) (p, d)
      = (l.foldl (payloadStepA src sec) p, d ++ defsOfEntries src sec l)
  | [], p, d => by simp [defsOfEntries]
  | (k, i) :: l, p, d => by
    cases i with
    | fieldRef name =>
      have hstep : stepA src sec (p, d) (k, Instruction.fieldRef name)
          = (payloadStepA src sec p (k, Instruction.fieldRef name), d) := by
        simp only [stepA, payloadStepA]
        by_cases ha : isAbsent (lookupField src name) = true <;> simp [ha]
      rw [List.foldl_cons, List.foldl_cons, hstep, foldl_stepA_sep src sec l _ d]
      simp [defsOfEntries]
    | resolver f =>
      rw [List.foldl_cons, List.foldl_cons,
        show stepA src sec (p, d) (k, Instruction.resolver f)
          = (p, d ++ [(sec, k, f src)]) from rfl,
        show payloadStepA src sec p (k, Instruction.resolver f) = p from rfl,
        foldl_stepA_sep src sec l p (d ++ [(sec, k, f src)])]
      simp [defsOfEntries]

/-- The synchronous loop splits into its payload effect and the
deferred-continuation list. -/
theorem phaseA_eq (m : Mapping) (src : Obj) :
    phaseA m src = (payloadA m src, defsA m src) := by
  simp only [phaseA, payloadA, defsA, sectionsList, List.foldl_cons, List.foldl_nil,
    List.map_cons, List.map_nil, List.flatten]
  rw [foldl_stepA_sep src "core" _ initialPayload []]
  rw [foldl_stepA_sep src "extensionAttributes"]
  rw [foldl_stepA_sep src "customAttributes"]
  simp

/-! ### Lemmas about the join on deferred resolutions -/

theorem firstError_eq_none_iff (ds : List Deferred) :
    firstError ds = none ↔ ∀ d ∈ ds, ∃ v, d.2.2 = Except.ok v := by
  induction ds with
  | nil => simp [firstError]
  | cons d ds ih =>
    simp only [firstError, List.findSome?_cons] at ih ⊢
    cases hd : d.2.2 with
    | error e => simp [hd, List.forall_mem_cons]
    | ok v => simp [hd, List.forall_mem_cons, ih]

theorem firstError_mem (ds : List Deferred) (e : String)
    (h : firstError ds = some e) :
    ∃ d ∈ ds, d.2.2 = Except.error e := by
  induction ds with
  | nil => simp [firstError] at h
  | cons d ds ih =>
    cases hd : d.2.2 with
    | error e' =>
      simp only [firstError, List.findSome?_cons, hd] at h
      cases h
      exact ⟨d, List.mem_cons_self d ds, hd⟩
    | ok v =>
      simp only [firstError, List.findSome?_cons, hd] at h
      obtain ⟨d', hd', he⟩ := ih h
      exact ⟨d', List.mem_cons_of_mem d hd', he⟩

theorem firstError_isSome_of_mem (ds : List Deferred) (d : Deferred) (e : String)
    (hd : d ∈ ds) (he : d.2.2 = Except.error e) :
    ∃ e', firstError ds = some e' := by
  cases h : firstError ds with
  | some e' => exact ⟨e', rfl⟩
  | none =>
    obtain ⟨v, hv⟩ := (firstError_eq_none_iff ds).mp h d hd
    rw [he] at hv
    exact absurd hv (by simp)

/-- Membership in the deferred list characterises the resolver entries
of the configuration. -/
theorem mem_defsA (m : Mapping) (src : Obj) (d : Deferred) :
    d ∈ defsA m src ↔
      d.1 ∈ sectionsList ∧ ∃ f, (d.2.1, Instruction.resolver f) ∈ getSection m d.1
        ∧ d.2.2 = f src := by
  constructor
  · intro h
    simp only [defsA, List.mem_flatten, List.mem_map] at h
    obtain ⟨_, ⟨sec, hsec, rfl⟩, hd⟩ := h
    simp only [defsOfEntries, List.mem_filterMap] at hd
    obtain ⟨⟨k, i⟩, hi, hmk⟩ := hd
    cases i with
    | fieldRef _ => exact absurd hmk (by simp)
    | resolver f =>
      simp only [Option.some_inj] at hmk
      subst hmk
      exact ⟨hsec, f, hi, rfl⟩
  · intro ⟨hsec, f, hmem, hres⟩
    simp only [defsA, List.mem_flatten, List.mem_map]
    refine ⟨defsOfEntries src d.1 (getSection m d.1), ⟨d.1, hsec, rfl⟩, ?_⟩
    simp only [defsOfEntries, List.mem_filterMap]
    refine ⟨(d.2.1, Instruction.resolver f), hmem, ?_⟩
    obtain ⟨s1, s2, s3⟩ := d
    simp only at hres ⊢
    rw [hres]

/-! ### Unfoldings of transform -/

theorem transform_eq (mapper : MagentoMapper) (src : Obj) :
    transform mapper src =
      match firstError (defsA mapper.mapping src) with
      | some e => Except.error e
      | none =>
        let p := applyDeferred (payloadA mapper.mapping src) (defsA mapper.mapping src)
        if truthy (productSku p) then Except.ok p else Except.error skuMsg := by
  simp only [transform, phaseA_eq]

theorem stepA_congr (src src' : Obj) (sec : String) (e : String × Instruction)
    (h : match e.2 with
      | Instruction.fieldRef n => lookupField src n = lookupField src' n
      | Instruction.resolver f => f src = f src') :
    ∀ st, stepA src sec st e = stepA src' sec st e := by
  intro st
  obtain ⟨k, i⟩ := e
  cases i with
  | fieldRef n => simp only at h; simp [stepA, h]
  | resolver f => simp only at h; simp [stepA, h]

theorem foldl_stepA_congr (src src' : Obj) (sec : String) :
    ∀ (l : Entries),
    (∀ e ∈ l, match e.2 with
      | Instruction.fieldRef n => lookupField src n = lookupField src' n
      | Instruction.resolver f => f src = f src') →
    ∀ st, l.foldl (stepA src sec) st = l.foldl (stepA src' sec) st
  | [], _, st => rfl
  | e :: l, h, st => by
    rw [List.foldl_cons, List.foldl_cons,
      stepA_congr src src' sec e (h e (List.mem_cons_self e l)) st]
    exact foldl_stepA_congr src src' sec l
      (fun e' he' => h e' (List.mem_cons_of_mem e he')) _

/-- The synchronous loop, hence the whole transform, reads the source
record only through the referenced fields and the resolver calls. -/
theorem phaseA_congr_src (m : Mapping) (src src' : Obj)
    (h : agreesOn m src src') : phaseA m src = phaseA m src' := by
  simp only [phaseA, sectionsList, List.foldl_cons, List.foldl_nil]
  rw [foldl_stepA_congr src src' "core" _ (h "core" (by simp [sectionsList])),
    foldl_stepA_congr src src' "extensionAttributes" _
      (h "extensionAttributes" (by simp [sectionsList])),
    foldl_stepA_congr src src' "customAttributes" _
      (h "customAttributes" (by simp [sectionsList]))]

/-- The function `transform` only consults the configuration through the three
hardcoded section names. -/
theorem phaseA_congr_sections (m m' : Mapping) (src : Obj)
    (h : ∀ s ∈ sectionsList, getSection m s = getSection m' s) :
    phaseA m src = phaseA m' src := by
  simp only [phaseA, sectionsList, List.foldl_cons, List.foldl_nil]
  rw [h "core" (by simp [sectionsList]),
    h "extensionAttributes" (by simp [sectionsList]),
    h "customAttributes" (by simp [sectionsList])]

/-! ### Claim theorems -/

/-- C7 (confirmed): for the configuration whose only entry is
`core = (sku, field reference id)` and the source record `(id, X1)`,
`transform` returns exactly the payload whose single root key `product`
holds the sku `X1` together with the empty `custom_attributes` list,
and nothing else.  (In the association list, `custom_attributes`
precedes `sku` because the payload is created with the empty list and
the sku key is appended by the write, matching JavaScript key insertion
order; as a JSON object this is exactly the record the claim states.) -/
theorem c7_core_scenario :
    transform ⟨mCore⟩ srcX1
      = Except.ok [("product",
          Value.vObj [("custom_attributes", Value.vArr []), ("sku", Value.vStr "X1")])]
    ∧ productSku (applyDeferred (payloadA mCore srcX1) (defsA mCore srcX1)) = Value.vStr "X1"
    ∧ attrCodesOfResult (transform ⟨mCore⟩ srcX1) = [] :=
  ⟨rfl, rfl, rfl⟩

/-- C8 (confirmed): the transform result is a function of the mapping
configuration and the source record alone; two calls with the same
(structurally equal) configuration and source record return
structurally identical output.  In the pure embedding the engine keeps
no other state, so determinism is exactly this congruence. -/
theorem c8_deterministic (a b : MagentoMapper) (src : Obj)
    (h : a.mapping = b.mapping) : transform a src = transform b src :=
  congrArg (fun mm => transform ⟨mm⟩ src) h

/-- Witness for C8 at a concrete configuration and record. -/
theorem c8_deterministic_witness :
    transform (createMapper mCore) srcX1 = transform ⟨mCore⟩ srcX1 :=
  c8_deterministic (createMapper mCore) ⟨mCore⟩ srcX1 rfl

/-- C1 (counterexample): with `core = (sku, field reference id)` and
source `(id, 0)`, the assembled sku is the number `0` — present and
non-empty — no resolver failed, and yet `transform` raises the SKU
validation error, because the code tests JavaScript truthiness
(`!magentoPayload.product.sku`), not presence/non-emptiness. -/
theorem c1_sku_zero_counterexample :
    transform ⟨mCore⟩ srcZero = Except.error skuMsg
    ∧ productSku (applyDeferred (payloadA mCore srcZero) (defsA mCore srcZero))
        = Value.vNum 0
    ∧ isAbsent (Value.vNum 0) = false
    ∧ firstError (defsA mCore srcZero) = none :=
  ⟨rfl, rfl, rfl, rfl⟩

/-- C1 (amended): provided no resolver failed, `transform` raises the
SKU validation error (and returns no output) exactly when the assembled
`product.sku` is missing or JavaScript-falsy (`undefined`, `null`,
`false`, `0`, or the empty string); when the assembled sku is truthy it
returns the assembled payload. -/
theorem c1_sku_validation (m : Mapping) (src : Obj)
    (h : firstError (defsA m src) = none) :
    (transform ⟨m⟩ src = Except.error skuMsg
      ↔ truthy (productSku (applyDeferred (payloadA m src) (defsA m src))) = false)
    ∧ (truthy (productSku (applyDeferred (payloadA m src) (defsA m src))) = true
      → transform ⟨m⟩ src = Except.ok (applyDeferred (payloadA m src) (defsA m src))) := by
  rw [transform_eq]
  simp only [h]
  cases ht : truthy (productSku (applyDeferred (payloadA m src) (defsA m src))) with
  | true => simp [ht]
  | false => simp [ht, skuMsg]

/-- Witness for C1 at the concrete sku-present scenario. -/
theorem c1_sku_validation_witness :
    (transform ⟨mCore⟩ srcX1 = Except.error skuMsg
      ↔ truthy (productSku (applyDeferred (payloadA mCore srcX1) (defsA mCore srcX1))) = false)
    ∧ (truthy (productSku (applyDeferred (payloadA mCore srcX1) (defsA mCore srcX1))) = true
      → transform ⟨mCore⟩ srcX1
          = Except.ok (applyDeferred (payloadA mCore srcX1) (defsA mCore srcX1))) :=
  c1_sku_validation mCore srcX1 rfl

/-- C4 (counterexample): the configuration `mExtra` declares a section
named `attributes` whose entry `note` would resolve to `X1`, yet the
transform output is identical to the output without that section: no
`note` key and no attribute record appears anywhere.  The engine is
behaviorally restricted to the three reference section names. -/
theorem c4_extra_section_ignored :
    transform ⟨mExtra⟩ srcX1 = transform ⟨mCore⟩ srcX1
    ∧ transform ⟨mExtra⟩ srcX1
        = Except.ok [("product",
            Value.vObj [("custom_attributes", Value.vArr []), ("sku", Value.vStr "X1")])]
    ∧ lookupPathOfResult (transform ⟨mExtra⟩ srcX1) ["product", "note"] = none
    ∧ getSection mExtra "attributes" = [("note", Instruction.fieldRef "id")] :=
  ⟨rfl, rfl, rfl, rfl⟩

/-- C4 (amended): the engine iterates exactly the fixed section list
`core`, `extensionAttributes`, `customAttributes`, in that order; the
transform result depends on the configuration only through those three
sections, so entries under any other declared section name contribute
nothing. -/
theorem c4_sections_fixed (m m' : Mapping) (src : Obj)
    (h : ∀ s ∈ sectionsList, getSection m s = getSection m' s) :
    transform ⟨m⟩ src = transform ⟨m'⟩ src
    ∧ sectionsList = ["core", "extensionAttributes", "customAttributes"] := by
  refine ⟨?_, rfl⟩
  simp only [transform, phaseA_congr_sections m m' src h]

/-- Witness for C4: the extra-section configuration agrees with `mCore`
on the three reference sections. -/
theorem c4_sections_fixed_witness :
    transform ⟨mExtra⟩ srcX1 = transform ⟨mCore⟩ srcX1
    ∧ sectionsList = ["core", "extensionAttributes", "customAttributes"] :=
  c4_sections_fixed mExtra mCore srcX1 (by
    intro s hs
    simp only [sectionsList, List.mem_cons, List.not_mem_nil, or_false] at hs
    rcases hs with rfl | rfl | rfl <;> rfl)

/-- C2 (confirmed): if any resolver entry of the configuration throws
or rejects on the source record, the whole transform fails (returning
no output) with a resolver error — with that resolver's error whenever
it is the only one; the engine invokes each resolver once and never
retries.  (When several distinct resolvers fail, `Promise.all` reports
the first rejection, so the call still fails with one of the resolver
errors.) -/
theorem c2_resolver_failure_aborts (m : Mapping) (src : Obj) (sec k : String)
    (f : Obj → Except String Value) (e : String)
    (hsec : sec ∈ sectionsList)
    (hmem : (k, Instruction.resolver f) ∈ getSection m sec)
    (herr : f src = Except.error e) :
    ∃ e', transform ⟨m⟩ src = Except.error e' ∧ resolverErrorOf m src e'
      ∧ ((∀ e'', resolverErrorOf m src e'' → e'' = e)
          → transform ⟨m⟩ src = Except.error e) := by
  have hd : (sec, k, f src) ∈ defsA m src :=
    (mem_defsA m src (sec, k, f src)).mpr ⟨hsec, f, hmem, rfl⟩
  obtain ⟨e₀, he₀⟩ := firstError_isSome_of_mem (defsA m src) (sec, k, f src) e hd herr
  have htr : transform ⟨m⟩ src = Except.error e₀ := by
    rw [transform_eq]; simp [he₀]
  have hres : resolverErrorOf m src e₀ := by
    obtain ⟨d, hdm, hde⟩ := firstError_mem (defsA m src) e₀ he₀
    obtain ⟨hds, f', hmem', hres'⟩ := (mem_defsA m src d).mp hdm
    exact ⟨d.1, hds, d.2.1, f', hmem', by rw [← hres', hde]⟩
  refine ⟨e₀, htr, hres, fun huniq => ?_⟩
  rw [htr, huniq e₀ hres]

/-- Witness for C2: the rejecting resolver of `mBoom` makes the
transform fail with its error. -/
theorem c2_resolver_failure_aborts_witness :
    transform ⟨mBoom⟩ srcX1 = Except.error "boom" := by
  obtain ⟨e', h1, h2, h3⟩ :=
    c2_resolver_failure_aborts mBoom srcX1 "core" "name" resBoom "boom"
      (by simp [sectionsList])
      (List.mem_cons_of_mem _ (List.mem_cons_self _ _))
      rfl
  refine h3 ?_
  rintro e'' ⟨sec, hsec, k, f, hmem, hfe⟩
  simp only [sectionsList, List.mem_cons, List.not_mem_nil, or_false] at hsec
  rcases hsec with rfl | rfl | rfl
  · rw [show getSection mBoom "core"
        = [("sku", Instruction.fieldRef "id"), ("name", Instruction.resolver resBoom)]
        from rfl] at hmem
    cases hmem with
    | tail _ h2 =>
      cases h2 with
      | head =>
        rw [show resBoom srcX1 = Except.error "boom" from rfl] at hfe
        cases hfe
        rfl
      | tail _ h3 => exact absurd h3 (List.not_mem_nil _)
  · rw [show getSection mBoom "extensionAttributes" = [] from rfl] at hmem
    exact absurd hmem (List.not_mem_nil _)
  · rw [show getSection mBoom "customAttributes" = [] from rfl] at hmem
    exact absurd hmem (List.not_mem_nil _)

/-- C9 (confirmed): the engine reads the source record but never
writes it.  In the pure embedding this is witnessed by two facts: the
deferred list produced by the loop is exactly one application `f src`
of each resolver entry to the unmodified source record passed to
`transform` (each resolver is invoked once, with exactly that record),
and the transform result is unchanged under replacing the source record
by any record the configuration cannot distinguish — the engine touches
the source only through the named key reads and the resolver calls. -/
theorem c9_source_read_only (m : Mapping) (src : Obj) :
    (phaseA m src).2 = defsA m src
    ∧ ∀ src', agreesOn m src src' → transform ⟨m⟩ src = transform ⟨m⟩ src' := by
  refine ⟨by rw [phaseA_eq], fun src' h => ?_⟩
  simp only [transform, phaseA_congr_src m src src' h]

/-- Witness for C9: adding an unread key to the source record leaves
the transform result unchanged. -/
theorem c9_source_read_only_witness :
    transform ⟨mCore⟩ srcX1 = transform ⟨mCore⟩ srcXtra :=
  (c9_source_read_only mCore srcX1).2 srcXtra (by
    intro sec hsec e he
    simp only [sectionsList, List.mem_cons, List.not_mem_nil, or_false] at hsec
    rcases hsec with rfl | rfl | rfl
    · rw [show getSection mCore "core" = [("sku", Instruction.fieldRef "id")] from rfl] at he
      cases he with
      | head => rfl
      | tail _ h => exact absurd h (List.not_mem_nil _)
    · rw [show getSection mCore "extensionAttributes" = [] from rfl] at he
      exact absurd he (List.not_mem_nil _)
    · rw [show getSection mCore "customAttributes" = [] from rfl] at he
      exact absurd he (List.not_mem_nil _))

/-! ### The payload shape invariant -/

theorem productShape_initial : productShape initialPayload :=
  ⟨[("custom_attributes", Value.vArr [])], rfl, Value.vArr [], rfl⟩

theorem productShape_setKey_inner (pfs : Obj) (r : String) (u : Value)
    (h : ∃ v, pfs.lookup "custom_attributes" = some v) :
    ∃ v, (setKey pfs r u).lookup "custom_attributes" = some v := by
  obtain ⟨v, hv⟩ := h
  have := lookup_setKey_isSome pfs r "custom_attributes" u (by simp [hv])
  exact Option.isSome_iff_exists.mp this

theorem setPathObj_cons_ca (pfs : Obj) (r : String) (rest : List String) (v : Value)
    (h : ∃ v0, pfs.lookup "custom_attributes" = some v0) :
    ∃ v0, (setPathObj pfs (r :: rest) v).lookup "custom_attributes" = some v0 := by
  cases rest with
  | nil => simp only [setPathObj]; exact productShape_setKey_inner pfs r v h
  | cons r2 rs' => simp only [setPathObj]; exact productShape_setKey_inner pfs r _ h

theorem setPathObj_product_eq (p : Obj) (pfs : Obj) (r : String)
    (rest : List String) (v : Value)
    (hp : p.lookup "product" = some (Value.vObj pfs)) :
    setPathObj p ("product" :: r :: rest) v
      = setKey p "product" (Value.vObj (setPathObj pfs (r :: rest) v)) := by
  simp only [setPathObj, hp]

theorem productShape_commit (p : Obj) (sec mPath : String) (v : Value)
    (h : productShape p) : productShape (commit p sec mPath v) := by
  obtain ⟨pfs, hp, hca⟩ := h
  unfold commit
  by_cases hs : sec = "customAttributes"
  · rw [if_pos hs]
    cases hcav : pfs.lookup "custom_attributes" with
    | none =>
      rw [show pushCustomAttr p mPath v = p from by simp [pushCustomAttr, hp, hcav]]
      exact ⟨pfs, hp, hca⟩
    | some a =>
      cases a with
      | vArr xs =>
        rw [show pushCustomAttr p mPath v
            = setKey p "product" (Value.vObj (setKey pfs "custom_attributes"
                (Value.vArr (xs ++ [attrRecord mPath v]))))
            from by simp [pushCustomAttr, hp, hcav]]
        exact ⟨setKey pfs "custom_attributes" (Value.vArr (xs ++ [attrRecord mPath v])),
          lookup_setKey_self _ _ _, _, lookup_setKey_self _ _ _⟩
      | vNull =>
        rw [show pushCustomAttr p mPath v = p from by simp [pushCustomAttr, hp, hcav]]
        exact ⟨pfs, hp, hca⟩
      | vUndef =>
        rw [show pushCustomAttr p mPath v = p from by simp [pushCustomAttr, hp, hcav]]
        exact ⟨pfs, hp, hca⟩
      | vBool b =>
        rw [show pushCustomAttr p mPath v = p from by simp [pushCustomAttr, hp, hcav]]
        exact ⟨pfs, hp, hca⟩
      | vNum n =>
        rw [show pushCustomAttr p mPath v = p from by simp [pushCustomAttr, hp, hcav]]
        exact ⟨pfs, hp, hca⟩
      | vStr s =>
        rw [show pushCustomAttr p mPath v = p from by simp [pushCustomAttr, hp, hcav]]
        exact ⟨pfs, hp, hca⟩
      | vObj gs =>
        rw [show pushCustomAttr p mPath v = p from by simp [pushCustomAttr, hp, hcav]]
        exact ⟨pfs, hp, hca⟩
  · rw [if_neg hs]
    obtain ⟨r, rs, hdp⟩ := destPath_head sec mPath
    rw [hdp, setPathObj_product_eq p pfs r rs v hp]
    exact ⟨setPathObj pfs (r :: rs) v, lookup_setKey_self _ _ _,
      setPathObj_cons_ca pfs r rs v hca⟩

theorem foldl_preserve {α : Type} (P : Obj → Prop) (step : Obj → α → Obj) :
    ∀ (l : List α) (p : Obj), P p →
    (∀ p' a, a ∈ l → P p' → P (step p' a)) → P (l.foldl step p)
  | [], p, h, _ => h
  | a :: l, p, h, hstep => by
    rw [List.foldl_cons]
    exact foldl_preserve P step l (step p a)
      (hstep p a (List.mem_cons_self a l) h)
      (fun p' a' ha' => hstep p' a' (List.mem_cons_of_mem a ha'))

theorem productShape_payloadStepA (src : Obj) (sec : String) (p : Obj)
    (e : String × Instruction) (h : productShape p) :
    productShape (payloadStepA src sec p e) := by
  obtain ⟨k, i⟩ := e
  cases i with
  | fieldRef name =>
    simp only [payloadStepA]
    by_cases ha : isAbsent (lookupField src name) = true
    · simp [ha, h]
    · simp only [ha, if_false, Bool.false_eq_true]
      exact productShape_commit p sec k _ h
  | resolver f => exact h

theorem productShape_payloadA (m : Mapping) (src : Obj) :
    productShape (payloadA m src) := by
  simp only [payloadA, sectionsList, List.foldl_cons, List.foldl_nil]
  refine foldl_preserve productShape _ _ _ (foldl_preserve productShape _ _ _
    (foldl_preserve productShape _ _ _ productShape_initial ?_) ?_) ?_ <;>
    exact fun p' a _ hp => productShape_payloadStepA src _ p' a hp

theorem productShape_applyDeferred (p : Obj) (ds : List Deferred)
    (h : productShape p) : productShape (applyDeferred p ds) := by
  refine foldl_preserve productShape _ ds p h ?_
  intro p' d _ hp
  cases hd : d.2.2 with
  | ok v =>
    simp only [hd]
    by_cases ha : isAbsent v = true
    · simp [ha, hp]
    · simp only [ha, if_false, Bool.false_eq_true]
      exact productShape_commit p' d.1 d.2.1 v hp
  | error e => simp only [hd]; exact hp

/-- Any successfully returned payload satisfies the shape invariant. -/
theorem transform_ok_productShape (m : Mapping) (src : Obj) (p : Obj)
    (h : transform ⟨m⟩ src = Except.ok p) : productShape p := by
  rw [transform_eq] at h
  cases hfe : firstError (defsA m src) with
  | some e => rw [hfe] at h; exact absurd h (by simp)
  | none =>
    rw [hfe] at h
    simp only at h
    by_cases ht : truthy (productSku (applyDeferred (payloadA m src) (defsA m src))) = true
    · rw [if_pos ht] at h
      cases h
      exact productShape_applyDeferred _ _ (productShape_payloadA m src)
    · rw [if_neg ht] at h
      exact absurd h (by simp)

/-! ### Lookup in an appended mapping -/

theorem mapping_lookup_append (l₁ l₂ : Mapping) (k : String) :
    (l₁ ++ l₂).lookup k = ((l₁.lookup k).orElse fun _ => l₂.lookup k) := by
  induction l₁ with
  | nil => simp [List.lookup]
  | cons a l₁ ih =>
    obtain ⟨ka, va⟩ := a
    by_cases hk : k = ka
    · simp [List.lookup, hk]
    · have hb : (k == ka) = false := beq_eq_false_iff_ne.mpr hk
      simp [List.lookup, hb, ih]

/-- C10 (counterexample): the configuration `mNoCore` has no `core`
key at all; on the record `(x, v)` the claim predicts an accepted
transform returning a payload with the product root, but the transform
fails with the SKU validation error and returns no output (no entry of
the other sections ever writes `product.sku`). -/
theorem c10_missing_core_counterexample :
    mNoCore.lookup "core" = none
    ∧ transform ⟨mNoCore⟩ srcXv = Except.error skuMsg :=
  ⟨rfl, rfl⟩

/-- C10 (amended): a configuration missing any of the three reference
section keys is accepted in the sense that the missing section is
treated exactly as an explicitly declared empty section (the transform
result is identical), and whenever `transform` does return an output it
contains the `product` root object with the `custom_attributes` key;
but a configuration missing `core` cannot produce a truthy
`product.sku`, so the SKU validation fails and no output is returned. -/
theorem c10_missing_section (m : Mapping) (src : Obj) (s : String)
    (hs : s ∈ sectionsList) (hmiss : m.lookup s = none) :
    transform ⟨m⟩ src = transform ⟨m ++ [(s, [])]⟩ src
    ∧ ∀ p, transform ⟨m⟩ src = Except.ok p → productShape p := by
  constructor
  · have hsec : ∀ s' ∈ sectionsList, getSection m s' = getSection (m ++ [(s, [])]) s' := by
      intro s' _
      unfold getSection
      rw [mapping_lookup_append]
      by_cases hss : s' = s
      · subst hss
        rw [hmiss]
        simp [List.lookup]
      · cases hl : m.lookup s' with
        | some es => simp
        | none =>
          have hb : (s' == s) = false := beq_eq_false_iff_ne.mpr hss
          simp [List.lookup, hb]
    simp only [transform, phaseA_congr_sections m (m ++ [(s, [])]) src hsec]
  · exact fun p hp => transform_ok_productShape m src p hp

/-- Witness for C10: `mCore` has no `extensionAttributes` key, and the
transform result is unchanged by declaring that section empty. -/
theorem c10_missing_section_witness :
    transform ⟨mCore⟩ srcX1 = transform ⟨mCore ++ [("extensionAttributes", [])]⟩ srcX1 :=
  (c10_missing_section mCore srcX1 "extensionAttributes"
    (by simp [sectionsList]) rfl).1

/-! ### Preservation of an observation point through the folds -/

theorem pathsDisjoint_symm (a b : List String) :
    pathsDisjoint a b = pathsDisjoint b a := by
  simp [pathsDisjoint, Bool.and_comm]

theorem payloadStepA_preserve (src : Obj) (sec : String) (q : List String)
    (e : String × Instruction)
    (h : match e.2 with
      | Instruction.fieldRef n => isAbsent (lookupField src n) = true
          ∨ pathsDisjoint (commitPath sec e.1) q = true
      | Instruction.resolver _ => True) :
    ∀ p, lookupPath (payloadStepA src sec p e) q = lookupPath p q := by
  intro p
  obtain ⟨k, i⟩ := e
  cases i with
  | fieldRef name =>
    simp only at h
    simp only [payloadStepA]
    by_cases ha : isAbsent (lookupField src name) = true
    · simp [ha]
    · simp only [ha, if_false, Bool.false_eq_true]
      rcases h with ha' | hdis
      · exact absurd ha' ha
      · exact lookupPath_commit_disjoint p sec k _ q hdis
  | resolver f => rfl

theorem applyDeferred_preserve (q : List String) (ds : List Deferred) (p : Obj)
    (h : ∀ d ∈ ds, (match d.2.2 with
      | Except.ok v => isAbsent v = true ∨ pathsDisjoint (commitPath d.1 d.2.1) q = true
      | Except.error _ => True)) :
    lookupPath (applyDeferred p ds) q = lookupPath p q := by
  unfold applyDeferred
  refine foldl_lookup_preserve _ q ds p ?_
  intro d hd p'
  have hh := h d hd
  cases hde : d.2.2 with
  | ok v =>
    rw [hde] at hh
    simp only [hde]
    rcases hh with ha | hdis
    · simp [ha]
    · by_cases ha : isAbsent v = true
      · simp [ha]
      · simp only [ha, if_false, Bool.false_eq_true]
        exact lookupPath_commit_disjoint p' d.1 d.2.1 v q hdis
  | error e => simp only [hde]

theorem applyDeferred_append (p : Obj) (a b : List Deferred) :
    applyDeferred p (a ++ b) = applyDeferred (applyDeferred p a) b := by
  simp [applyDeferred, List.foldl_append]

theorem applyDeferred_cons (p : Obj) (d : Deferred) (ds : List Deferred) :
    applyDeferred p (d :: ds) = applyDeferred (applyDeferred p [d]) ds := rfl

/-! ### Decomposition of an entries list at a looked-up key -/

theorem lookup_decomp : ∀ (l : Entries) (k : String) (i : Instruction),
    l.lookup k = some i →
    ∃ l₁ l₂, l = l₁ ++ (k, i) :: l₂ ∧ ∀ e ∈ l₁, e.1 ≠ k
  | [], k, i, h => by simp [List.lookup] at h
  | (k₀, i₀) :: l, k, i, h => by
    by_cases hk : k = k₀
    · subst hk
      simp only [List.lookup, beq_self_eq_true] at h
      cases h
      exact ⟨[], l, rfl, by simp⟩
    · have hb : (k == k₀) = false := beq_eq_false_iff_ne.mpr hk
      simp only [List.lookup, hb] at h
      obtain ⟨l₁, l₂, heq, hl₁⟩ := lookup_decomp l k i h
      refine ⟨(k₀, i₀) :: l₁, l₂, by rw [heq]; rfl, ?_⟩
      intro e he
      rcases List.mem_cons.mp he with rfl | he'
      · exact Ne.symm hk
      · exact hl₁ e he'

theorem nodup_keys_right (l₁ l₂ : Entries) (k : String) (i : Instruction)
    (hnd : (sectionKeys (l₁ ++ (k, i) :: l₂)).Nodup) :
    ∀ e ∈ l₂, e.1 ≠ k := by
  intro e he hek
  simp only [sectionKeys, List.map_append, List.map_cons, List.nodup_append] at hnd
  have h2 : ((k : String) :: l₂.map Prod.fst).Nodup := hnd.2.1
  have hk2 : k ∈ l₂.map Prod.fst := List.mem_map.mpr ⟨e, he, hek⟩
  exact (List.nodup_cons.mp h2).1 hk2

theorem nodup_unique_entry (l : Entries) (k : String) (i₁ i₂ : Instruction)
    (hnd : (sectionKeys l).Nodup) (h1 : (k, i₁) ∈ l) (h2 : (k, i₂) ∈ l) :
    i₁ = i₂ := by
  induction l with
  | nil => exact absurd h1 (List.not_mem_nil _)
  | cons e l ih =>
    simp only [sectionKeys, List.map_cons, List.nodup_cons] at hnd
    rcases List.mem_cons.mp h1 with rfl | h1'
    · rcases List.mem_cons.mp h2 with he | h2'
      · cases he; rfl
      · exact absurd (List.mem_map.mpr ⟨(k, i₂), h2', rfl⟩) hnd.1
    · rcases List.mem_cons.mp h2 with rfl | h2'
      · exact absurd (List.mem_map.mpr ⟨(k, i₁), h1', rfl⟩) hnd.1
      · exact ih hnd.2 h1' h2'

theorem eraseEntry_append (l₁ l₂ : Entries) (k : String) (i : Instruction)
    (h : ∀ e ∈ l₁, e.1 ≠ k) :
    eraseEntry (l₁ ++ (k, i) :: l₂) k = l₁ ++ l₂ := by
  induction l₁ with
  | nil => simp [eraseEntry]
  | cons e l₁ ih =>
    obtain ⟨ke, ie⟩ := e
    have hke : ke ≠ k := h (ke, ie) (List.mem_cons_self _ _)
    have hhead : eraseEntry (((ke, ie) :: l₁) ++ (k, i) :: l₂) k
        = (ke, ie) :: eraseEntry (l₁ ++ (k, i) :: l₂) k := by
      simp [eraseEntry, hke]
    rw [hhead, ih (fun e' he' => h e' (List.mem_cons_of_mem _ he'))]
    rfl

theorem getSection_cons (n : String) (X : Entries) (rest : Mapping) (s' : String) :
    getSection ((n, X) :: rest) s' = if s' = n then X else getSection rest s' := by
  by_cases h : s' = n
  · simp [getSection, List.lookup, h]
  · have hb : (s' == n) = false := beq_eq_false_iff_ne.mpr h
    simp [getSection, List.lookup, hb, h]

theorem getSection_removeEntry (m : Mapping) (s k : String) (s' : String) :
    getSection (removeEntry m s k) s'
      = if s' = s then eraseEntry (getSection m s') k else getSection m s' := by
  induction m with
  | nil =>
    by_cases h : s' = s <;> simp [removeEntry, getSection, List.lookup, h, eraseEntry]
  | cons a m ih =>
    obtain ⟨n, es⟩ := a
    by_cases hns : n = s
    · subst hns
      have hstep : removeEntry ((n, es) :: m) n k
          = (n, eraseEntry es k) :: removeEntry m n k := by
        simp [removeEntry]
      rw [hstep]
      simp only [getSection_cons]
      by_cases hsn : s' = n
      · simp [hsn]
      · simp [hsn, ih]
    · have hstep : removeEntry ((n, es) :: m) s k
          = (n, es) :: removeEntry m s k := by
        simp [removeEntry, hns]
      rw [hstep]
      simp only [getSection_cons]
      by_cases hsn : s' = n
      · have hss : ¬ (s' = s) := by rw [hsn]; exact hns
        simp [hsn, hss, hns]
      · simp [hsn, ih]

theorem defsOfEntries_append (src : Obj) (sec : String) (l₁ l₂ : Entries) :
    defsOfEntries src sec (l₁ ++ l₂)
      = defsOfEntries src sec l₁ ++ defsOfEntries src sec l₂ := by
  simp [defsOfEntries, List.filterMap_append]

theorem firstError_middle_ok (d : Deferred) (v : Value) (hd : d.2.2 = Except.ok v) :
    ∀ (a b : List Deferred),
    firstError (a ++ d :: b) = firstError (a ++ b)
  | [], b => by
    simp only [List.nil_append, firstError, List.findSome?_cons, hd]
  | d' :: a, b => by
    simp only [List.cons_append, firstError, List.findSome?_cons]
    cases d'.2.2 with
    | error e => rfl
    | ok v' => exact firstError_middle_ok d v hd a b

/-! ### The flat-attribute list through the folds -/

theorem custom_fold_pc (src : Obj) : ∀ (l : Entries) (p : Obj) (xs : List Value),
    lookupPath p pcPath = some (Value.vArr xs) →
    lookupPath (l.foldl (payloadStepA src "customAttributes") p) pcPath
      = some (Value.vArr (xs ++ fieldRefRecords src l))
  | [], p, xs, h => by simpa [fieldRefRecords]
  | (k, i) :: l, p, xs, h => by
    cases i with
    | fieldRef name =>
      rw [List.foldl_cons]
      by_cases ha : isAbsent (lookupField src name) = true
      · have hstep : payloadStepA src "customAttributes" p (k, Instruction.fieldRef name) = p := by
          simp [payloadStepA, ha]
        rw [hstep, custom_fold_pc src l p xs h]
        simp [fieldRefRecords, List.filterMap_cons, ha]
      · have hstep : payloadStepA src "customAttributes" p (k, Instruction.fieldRef name)
            = pushCustomAttr p k (lookupField src name) := by
          simp [payloadStepA, ha, commit]
        rw [hstep, custom_fold_pc src l _ (xs ++ [attrRecord k (lookupField src name)])
          (lookupPath_pushCustomAttr_pc p k _ xs h)]
        have ha' : isAbsent (lookupField src name) = false := by
          simpa using ha
        simp [fieldRefRecords, List.filterMap_cons, ha']
    | resolver f =>
      rw [List.foldl_cons]
      have hstep : payloadStepA src "customAttributes" p (k, Instruction.resolver f) = p := rfl
      rw [hstep, custom_fold_pc src l p xs h]
      simp [fieldRefRecords, List.filterMap_cons]

theorem custom_defs_fold_pc (src : Obj) : ∀ (l : Entries) (p : Obj) (xs : List Value),
    lookupPath p pcPath = some (Value.vArr xs) →
    lookupPath (applyDeferred p (defsOfEntries src "customAttributes" l)) pcPath
      = some (Value.vArr (xs ++ resolverRecords src l))
  | [], p, xs, h => by simpa [defsOfEntries, resolverRecords, applyDeferred]
  | (k, i) :: l, p, xs, h => by
    cases i with
    | fieldRef name =>
      have hdefs : defsOfEntries src "customAttributes" ((k, Instruction.fieldRef name) :: l)
          = defsOfEntries src "customAttributes" l := by
        simp [defsOfEntries, List.filterMap_cons]
      rw [hdefs, custom_defs_fold_pc src l p xs h]
      simp [resolverRecords, List.filterMap_cons]
    | resolver f =>
      rw [show defsOfEntries src "customAttributes" ((k, Instruction.resolver f) :: l)
          = ("customAttributes", k, f src) :: defsOfEntries src "customAttributes" l
          from by simp [defsOfEntries, List.filterMap_cons], applyDeferred_cons]
      cases hf : f src with
      | ok v =>
        by_cases ha : isAbsent v = true
        · have hstep : applyDeferred p [("customAttributes", k, Except.ok v)] = p := by
            simp [applyDeferred, ha]
          rw [hstep, custom_defs_fold_pc src l p xs h]
          simp [resolverRecords, List.filterMap_cons, hf, ha]
        · have hstep : applyDeferred p [("customAttributes", k, Except.ok v)]
              = pushCustomAttr p k v := by
            simp [applyDeferred, ha, commit]
          rw [hstep, custom_defs_fold_pc src l _ (xs ++ [attrRecord k v])
              (lookupPath_pushCustomAttr_pc p k v xs h)]
          have ha' : isAbsent v = false := by simpa using ha
          simp [resolverRecords, List.filterMap_cons, hf, ha']
      | error e =>
        have hstep : applyDeferred p [("customAttributes", k, Except.error e)] = p := by
          simp [applyDeferred]
        rw [hstep, custom_defs_fold_pc src l p xs h]
        simp [resolverRecords, List.filterMap_cons, hf]

/-! ### Characterising the flat-attribute list of a successful transform -/

theorem transform_ok_parts (m : Mapping) (src : Obj) (p : Obj)
    (h : transform ⟨m⟩ src = Except.ok p) :
    firstError (defsA m src) = none
    ∧ p = applyDeferred (payloadA m src) (defsA m src) := by
  rw [transform_eq] at h
  cases hfe : firstError (defsA m src) with
  | some e => rw [hfe] at h; exact absurd h (by simp)
  | none =>
    rw [hfe] at h
    simp only at h
    by_cases ht : truthy (productSku (applyDeferred (payloadA m src) (defsA m src))) = true
    · rw [if_pos ht] at h
      cases h
      exact ⟨rfl, rfl⟩
    · rw [if_neg ht] at h
      exact absurd h (by simp)

theorem commitPath_core (k : String) : commitPath "core" k = destPath "core" k := rfl

theorem commitPath_ext (k : String) :
    commitPath "extensionAttributes" k = destPath "extensionAttributes" k := rfl

theorem commitPath_custom (k : String) : commitPath "customAttributes" k = pcPath := rfl

theorem destPath_mem_pairPaths_core (m : Mapping) (e : String × Instruction)
    (he : e ∈ getSection m "core") : destPath "core" e.1 ∈ pairPaths m :=
  List.mem_append_left _ (List.mem_map.mpr ⟨e, he, rfl⟩)

theorem destPath_mem_pairPaths_ext (m : Mapping) (e : String × Instruction)
    (he : e ∈ getSection m "extensionAttributes") :
    destPath "extensionAttributes" e.1 ∈ pairPaths m :=
  List.mem_append_right _ (List.mem_map.mpr ⟨e, he, rfl⟩)

theorem mem_defsOfEntries (src : Obj) (sec : String) (l : Entries) (d : Deferred)
    (hd : d ∈ defsOfEntries src sec l) :
    d.1 = sec ∧ ∃ f, (d.2.1, Instruction.resolver f) ∈ l ∧ d.2.2 = f src := by
  simp only [defsOfEntries, List.mem_filterMap] at hd
  obtain ⟨⟨k, i⟩, hi, hmk⟩ := hd
  cases i with
  | fieldRef _ => exact absurd hmk (by simp)
  | resolver f =>
    simp only [Option.some_inj] at hmk
    subst hmk
    exact ⟨rfl, f, hi, rfl⟩

theorem defsA_decomp (m : Mapping) (src : Obj) :
    defsA m src
      = defsOfEntries src "core" (getSection m "core")
        ++ (defsOfEntries src "extensionAttributes" (getSection m "extensionAttributes")
        ++ defsOfEntries src "customAttributes" (getSection m "customAttributes")) := by
  simp [defsA, sectionsList]

theorem payloadA_decomp (m : Mapping) (src : Obj) :
    payloadA m src
      = (getSection m "customAttributes").foldl (payloadStepA src "customAttributes")
          ((getSection m "extensionAttributes").foldl (payloadStepA src "extensionAttributes")
            ((getSection m "core").foldl (payloadStepA src "core") initialPayload)) := by
  simp [payloadA, sectionsList]

theorem lookupPath_initial_pc : lookupPath initialPayload pcPath = some (Value.vArr []) := rfl

/-- The flat list of a successful transform, in full: the
field-reference records in declaration order, then the resolver
records in declaration order, provided no path-section entry writes
into the flat list's location. -/
theorem flatList_of_ok (m : Mapping) (src : Obj) (p : Obj)
    (hdisj : ∀ q ∈ pairPaths m, pathsDisjoint q pcPath = true)
    (htr : transform ⟨m⟩ src = Except.ok p) :
    lookupPath p pcPath
      = some (Value.vArr (fieldRefRecords src (getSection m "customAttributes")
          ++ resolverRecords src (getSection m "customAttributes"))) := by
  obtain ⟨hfe, hp⟩ := transform_ok_parts m src p htr
  subst hp
  have hcore : lookupPath ((getSection m "core").foldl (payloadStepA src "core")
      initialPayload) pcPath = some (Value.vArr []) := by
    rw [foldl_lookup_preserve _ pcPath _ _ ?_]
    · exact lookupPath_initial_pc
    · intro e he p'
      refine payloadStepA_preserve src "core" pcPath e ?_ p'
      cases e.2 with
      | fieldRef n =>
        simp only [commitPath_core]
        exact Or.inr (hdisj _ (destPath_mem_pairPaths_core m e he))
      | resolver f => trivial
  have hext : lookupPath ((getSection m "extensionAttributes").foldl
      (payloadStepA src "extensionAttributes")
      ((getSection m "core").foldl (payloadStepA src "core") initialPayload)) pcPath
      = some (Value.vArr []) := by
    rw [foldl_lookup_preserve _ pcPath _ _ ?_]
    · exact hcore
    · intro e he p'
      refine payloadStepA_preserve src "extensionAttributes" pcPath e ?_ p'
      cases e.2 with
      | fieldRef n =>
        simp only [commitPath_ext]
        exact Or.inr (hdisj _ (destPath_mem_pairPaths_ext m e he))
      | resolver f => trivial
  have hpayload : lookupPath (payloadA m src) pcPath
      = some (Value.vArr (fieldRefRecords src (getSection m "customAttributes"))) := by
    rw [payloadA_decomp]
    have := custom_fold_pc src (getSection m "customAttributes") _ [] hext
    simpa using this
  rw [defsA_decomp, applyDeferred_append]
  have hdcore : lookupPath (applyDeferred (payloadA m src)
      (defsOfEntries src "core" (getSection m "core"))) pcPath
      = some (Value.vArr (fieldRefRecords src (getSection m "customAttributes"))) := by
    rw [applyDeferred_preserve pcPath _ _ ?_]
    · exact hpayload
    · intro d hd
      obtain ⟨hd1, f, hmem, hres⟩ := mem_defsOfEntries src "core" _ d hd
      cases hde : d.2.2 with
      | ok v =>
        refine Or.inr ?_
        rw [show commitPath d.1 d.2.1 = destPath "core" d.2.1 from by
          rw [hd1, commitPath_core]]
        exact hdisj _ (destPath_mem_pairPaths_core m (d.2.1, Instruction.resolver f) hmem)
      | error e => trivial
  rw [applyDeferred_append]
  have hdext : lookupPath (applyDeferred (applyDeferred (payloadA m src)
      (defsOfEntries src "core" (getSection m "core")))
      (defsOfEntries src "extensionAttributes" (getSection m "extensionAttributes"))) pcPath
      = some (Value.vArr (fieldRefRecords src (getSection m "customAttributes"))) := by
    rw [applyDeferred_preserve pcPath _ _ ?_]
    · exact hdcore
    · intro d hd
      obtain ⟨hd1, f, hmem, hres⟩ := mem_defsOfEntries src "extensionAttributes" _ d hd
      cases hde : d.2.2 with
      | ok v =>
        refine Or.inr ?_
        rw [show commitPath d.1 d.2.1 = destPath "extensionAttributes" d.2.1 from by
          rw [hd1, commitPath_ext]]
        exact hdisj _ (destPath_mem_pairPaths_ext m (d.2.1, Instruction.resolver f) hmem)
      | error e => trivial
  have := custom_defs_fold_pc src (getSection m "customAttributes") _ _ hdext
  exact this

/-- C5 (counterexample): in `mMixed` the flat-attribute section
declares the resolver entry `a` before the field-reference entry `b`;
both resolve to non-absent values, yet the output list carries `b`
before `a`: field-reference entries commit synchronously during the
loop while resolver entries commit only when their awaited
continuations resume, so the declared order is not preserved when the
two instruction kinds are mixed. -/
theorem c5_mixed_order_counterexample :
    attrCodesOfResult (transform ⟨mMixed⟩ srcMixed) = ["b", "a"]
    ∧ sectionKeys (getSection mMixed "customAttributes") = ["a", "b"]
    ∧ (["b", "a"] : List String) ≠ ["a", "b"] :=
  ⟨rfl, rfl, by decide⟩

/-- C5 (amended): whenever `transform` succeeds (and no path-section
entry targets the flat list's own location), the output list holds
exactly one record, of the exact shape attribute-code / value, per
contributing entry of the flat-attribute section; the records of
field-reference entries come first, in the configuration's declared
key order, followed by the records of resolver entries, in declared
order.  Declared order across the whole section is preserved only when
the section does not mix the two instruction kinds. -/
theorem c5_flat_list (m : Mapping) (src : Obj) (p : Obj)
    (hdisj : ∀ q ∈ pairPaths m, pathsDisjoint q pcPath = true)
    (htr : transform ⟨m⟩ src = Except.ok p) :
    lookupPath p pcPath
      = some (Value.vArr (fieldRefRecords src (getSection m "customAttributes")
          ++ resolverRecords src (getSection m "customAttributes"))) :=
  flatList_of_ok m src p hdisj htr

/-- Witness for C5 on the mixed configuration. -/
theorem c5_flat_list_witness :
    lookupPath [("product",
        Value.vObj [("custom_attributes",
          Value.vArr [attrRecord "b" (Value.vStr "B"), attrRecord "a" (Value.vStr "A")]),
          ("sku", Value.vStr "I")])] pcPath
      = some (Value.vArr (fieldRefRecords srcMixed (getSection mMixed "customAttributes")
          ++ resolverRecords srcMixed (getSection mMixed "customAttributes"))) :=
  c5_flat_list mMixed srcMixed _
    (by
      intro q hq
      rw [show pairPaths mMixed = [["product", "sku"]] from rfl] at hq
      cases hq with
      | head => rfl
      | tail _ h => exact absurd h (List.not_mem_nil _))
    rfl

/-! ### Correctness of a nested extension write -/

theorem pathsDisjoint_pc_extPath (k : String) :
    pathsDisjoint pcPath (destPath "extensionAttributes" k) = true := by
  have hd : destPath "extensionAttributes" k
      = "product" :: "extension_attributes" :: splitDot k := by
    simp [destPath]
  rw [hd, show pcPath = "product" :: ["custom_attributes"] from rfl,
    pathsDisjoint_cons_same]
  exact pathsDisjoint_cons_ne _ _ _ _ (by decide)

theorem ext_write_of_ok (m : Mapping) (src : Obj) (k : String) (instr : Instruction)
    (v : Value) (p : Obj)
    (hlk : (getSection m "extensionAttributes").lookup k = some instr)
    (hnod : wfKeys m)
    (hres : resolveOf instr src = Except.ok v)
    (habs : isAbsent v = false)
    (hfresh : ∀ q ∈ pairPaths (removeEntry m "extensionAttributes" k),
      pathsDisjoint q (destPath "extensionAttributes" k) = true)
    (htr : transform ⟨m⟩ src = Except.ok p) :
    lookupPath p (destPath "extensionAttributes" k) = some v := by
  obtain ⟨hfe, hp⟩ := transform_ok_parts m src p htr
  subst hp
  obtain ⟨l₁, l₂, hld, hl₁⟩ := lookup_decomp _ k instr hlk
  have hndext : (sectionKeys (getSection m "extensionAttributes")).Nodup :=
    hnod "extensionAttributes" (by simp [sectionsList])
  have hl₂ : ∀ e ∈ l₂, e.1 ≠ k := nodup_keys_right l₁ l₂ k instr (hld ▸ hndext)
  have herase : eraseEntry (getSection m "extensionAttributes") k = l₁ ++ l₂ := by
    rw [hld]; exact eraseEntry_append l₁ l₂ k instr hl₁
  have hcoreD : ∀ e ∈ getSection m "core",
      pathsDisjoint (destPath "core" e.1) (destPath "extensionAttributes" k) = true := by
    intro e he
    refine hfresh _ (List.mem_append_left _ (List.mem_map.mpr ⟨e, ?_, rfl⟩))
    rw [getSection_removeEntry, if_neg (by decide)]
    exact he
  have hextD : ∀ e ∈ l₁ ++ l₂,
      pathsDisjoint (destPath "extensionAttributes" e.1)
        (destPath "extensionAttributes" k) = true := by
    intro e he
    refine hfresh _ (List.mem_append_right _ (List.mem_map.mpr ⟨e, ?_, rfl⟩))
    rw [getSection_removeEntry, if_pos rfl, herase]
    exact he
  have hpcQ : pathsDisjoint pcPath (destPath "extensionAttributes" k) = true :=
    pathsDisjoint_pc_extPath k
  have hmem_other : ∀ e : String × Instruction, e ∈ getSection m "extensionAttributes" →
      e.1 ≠ k → e ∈ l₁ ++ l₂ := by
    intro e he hek
    rw [hld] at he
    rcases List.mem_append.mp he with h1 | h2
    · exact List.mem_append_left _ h1
    · rcases List.mem_cons.mp h2 with rfl | h3
      · exact absurd rfl hek
      · exact List.mem_append_right _ h3
  have hcommitQ : ∀ p', commit p' "extensionAttributes" k v
      = setPathObj p' (destPath "extensionAttributes" k) v := by
    intro p'
    unfold commit
    rw [if_neg (by decide)]
  cases instr with
  | fieldRef name =>
    have hv : lookupField src name = v := by
      simpa [resolveOf] using hres
    have hself : ∀ p', lookupPath (payloadStepA src "extensionAttributes" p'
        (k, Instruction.fieldRef name)) (destPath "extensionAttributes" k) = some v := by
      intro p'
      have hstep : payloadStepA src "extensionAttributes" p' (k, Instruction.fieldRef name)
          = commit p' "extensionAttributes" k v := by
        simp [payloadStepA, hv, habs]
      rw [hstep, hcommitQ]
      exact lookupPath_setPathObj_self _ p' v (destPath_ne_nil _ _)
    have hext_fold : lookupPath ((getSection m "extensionAttributes").foldl
        (payloadStepA src "extensionAttributes")
        ((getSection m "core").foldl (payloadStepA src "core") initialPayload))
        (destPath "extensionAttributes" k) = some v := by
      rw [hld, List.foldl_append, List.foldl_cons]
      rw [foldl_lookup_preserve _ _ l₂ _ ?_]
      · exact hself _
      · intro e he p'
        refine payloadStepA_preserve src "extensionAttributes" _ e ?_ p'
        cases e.2 with
        | fieldRef n =>
          simp only [commitPath_ext]
          exact Or.inr (hextD e (List.mem_append_right l₁ he))
        | resolver f => trivial
    have hpayload : lookupPath (payloadA m src) (destPath "extensionAttributes" k)
        = some v := by
      rw [payloadA_decomp, foldl_lookup_preserve _ _ _ _ ?_]
      · exact hext_fold
      · intro e he p'
        refine payloadStepA_preserve src "customAttributes" _ e ?_ p'
        cases e.2 with
        | fieldRef n => simp only [commitPath_custom]; exact Or.inr hpcQ
        | resolver f => trivial
    rw [applyDeferred_preserve _ _ _ ?_]
    · exact hpayload
    · intro d hd
      obtain ⟨hds, f', hmem', hres'⟩ := (mem_defsA m src d).mp hd
      cases hde : d.2.2 with
      | error e => trivial
      | ok v' =>
        refine Or.inr ?_
        simp only [sectionsList, List.mem_cons, List.not_mem_nil, or_false] at hds
        rcases hds with h1 | h2 | h3
        · rw [show commitPath d.1 d.2.1 = destPath "core" d.2.1 from by
            rw [h1, commitPath_core]]
          refine hcoreD (d.2.1, Instruction.resolver f') ?_
          rw [h1] at hmem'; exact hmem'
        · rw [show commitPath d.1 d.2.1 = destPath "extensionAttributes" d.2.1 from by
            rw [h2, commitPath_ext]]
          rw [h2] at hmem'
          have hkne : d.2.1 ≠ k := by
            intro hdk
            rw [hdk] at hmem'
            have hours : (k, Instruction.fieldRef name)
                ∈ getSection m "extensionAttributes" := by
              rw [hld]
              exact List.mem_append_right _ (List.mem_cons_self _ _)
            exact Instruction.noConfusion
              (nodup_unique_entry _ k _ _ hndext hmem' hours)
          exact hextD (d.2.1, Instruction.resolver f') (hmem_other _ hmem' hkne)
        · rw [show commitPath d.1 d.2.1 = pcPath from by rw [h3, commitPath_custom]]
          exact hpcQ
  | resolver f =>
    have hv : f src = Except.ok v := by simpa [resolveOf] using hres
    have hdefsA : defsA m src
        = (defsOfEntries src "core" (getSection m "core")
            ++ defsOfEntries src "extensionAttributes" l₁)
          ++ ("extensionAttributes", k, f src)
            :: (defsOfEntries src "extensionAttributes" l₂
              ++ defsOfEntries src "customAttributes" (getSection m "customAttributes")) := by
      rw [defsA_decomp, hld, defsOfEntries_append,
        show defsOfEntries src "extensionAttributes" ((k, Instruction.resolver f) :: l₂)
          = ("extensionAttributes", k, f src) :: defsOfEntries src "extensionAttributes" l₂
          from by simp [defsOfEntries, List.filterMap_cons]]
      simp [List.append_assoc]
    rw [hdefsA, applyDeferred_append, applyDeferred_cons]
    rw [applyDeferred_preserve _ _ _ ?_]
    · rw [hv]
      have happ1 : ∀ X, applyDeferred X [("extensionAttributes", k, Except.ok v)]
          = setPathObj X (destPath "extensionAttributes" k) v := by
        intro X
        rw [show applyDeferred X [("extensionAttributes", k, Except.ok v)]
            = commit X "extensionAttributes" k v from by simp [applyDeferred, habs]]
        exact hcommitQ X
      rw [happ1]
      exact lookupPath_setPathObj_self _ _ v (destPath_ne_nil _ _)
    · intro d hd
      rcases List.mem_append.mp hd with h2 | h3
      · obtain ⟨hd1, f', hmem', hres'⟩ := mem_defsOfEntries src "extensionAttributes" _ d h2
        cases hde : d.2.2 with
        | error e => trivial
        | ok v' =>
          refine Or.inr ?_
          rw [show commitPath d.1 d.2.1 = destPath "extensionAttributes" d.2.1 from by
            rw [hd1, commitPath_ext]]
          exact hextD (d.2.1, Instruction.resolver f') (List.mem_append_right l₁ hmem')
      · obtain ⟨hd1, f', hmem', hres'⟩ := mem_defsOfEntries src "customAttributes" _ d h3
        cases hde : d.2.2 with
        | error e => trivial
        | ok v' =>
          refine Or.inr ?_
          rw [show commitPath d.1 d.2.1 = pcPath from by rw [hd1, commitPath_custom]]
          exact hpcQ

/-- C6 (confirmed): an `extensionAttributes` entry with a dotted
destination key whose instruction resolves to a non-absent value is
written at the nested path `product.extension_attributes.<key>`,
creating the intermediate containers as needed, and — provided no
other entry of the configuration targets an overlapping destination
path, the spec's well-formedness invariant — no sibling write disturbs
it; concretely, the entry `stock_item.qty ↦ inventory` on the source
`(inventory, 7)` makes the output hold 7 at
`product.extension_attributes.stock_item.qty`. -/
theorem c6_nested_extension_write (m : Mapping) (src : Obj) (k : String)
    (instr : Instruction) (v : Value) (p : Obj)
    (hlk : (getSection m "extensionAttributes").lookup k = some instr)
    (hnod : wfKeys m)
    (hres : resolveOf instr src = Except.ok v)
    (habs : isAbsent v = false)
    (hfresh : ∀ q ∈ pairPaths (removeEntry m "extensionAttributes" k),
      pathsDisjoint q (destPath "extensionAttributes" k) = true)
    (htr : transform ⟨m⟩ src = Except.ok p) :
    lookupPath p (destPath "extensionAttributes" k) = some v
    ∧ lookupPathOfResult (transform ⟨mExt⟩ srcInv)
        ["product", "extension_attributes", "stock_item", "qty"] = some (Value.vNum 7) :=
  ⟨ext_write_of_ok m src k instr v p hlk hnod hres habs hfresh htr, rfl⟩

/-- Witness for C6 on the concrete stock-item configuration. -/
theorem c6_nested_extension_write_witness :
    lookupPath [("product",
        Value.vObj [("custom_attributes", Value.vArr []), ("sku", Value.vStr "X1"),
          ("extension_attributes",
            Value.vObj [("stock_item", Value.vObj [("qty", Value.vNum 7)])])])]
      (destPath "extensionAttributes" "stock_item.qty") = some (Value.vNum 7) :=
  (c6_nested_extension_write mExt srcInv "stock_item.qty"
    (Instruction.fieldRef "inventory") (Value.vNum 7) _
    rfl
    (by
      intro sec hsec
      simp only [sectionsList, List.mem_cons, List.not_mem_nil, or_false] at hsec
      rcases hsec with rfl | rfl | rfl
      · rw [show sectionKeys (getSection mExt "core") = ["sku"] from rfl]
        decide
      · rw [show sectionKeys (getSection mExt "extensionAttributes")
            = ["stock_item.qty"] from rfl]
        decide
      · rw [show sectionKeys (getSection mExt "customAttributes") = [] from rfl]
        decide)
    rfl rfl
    (by
      intro q hq
      rw [show pairPaths (removeEntry mExt "extensionAttributes" "stock_item.qty")
          = [["product", "sku"]] from rfl] at hq
      cases hq with
      | head => rfl
      | tail _ h => exact absurd h (List.not_mem_nil _))
    rfl).1

/-! ### Absent resolutions contribute nothing -/

theorem transform_eq2 (m : Mapping) (src : Obj) :
    transform ⟨m⟩ src =
      match firstError (defsA m src) with
      | some e => Except.error e
      | none =>
        let p := applyDeferred (payloadA m src) (defsA m src)
        if truthy (productSku p) then Except.ok p else Except.error skuMsg :=
  transform_eq ⟨m⟩ src

theorem applyDeferred_middle_absent (d : Deferred) (v : Value)
    (hd : d.2.2 = Except.ok v) (ha : isAbsent v = true) (p : Obj)
    (a b : List Deferred) :
    applyDeferred p (a ++ d :: b) = applyDeferred p (a ++ b) := by
  rw [applyDeferred_append, applyDeferred_cons,
    show applyDeferred (applyDeferred p a) [d] = applyDeferred p a from by
      simp [applyDeferred, hd, ha],
    ← applyDeferred_append]

theorem lookup_mem (l : Entries) (k : String) (i : Instruction)
    (h : l.lookup k = some i) : (k, i) ∈ l := by
  obtain ⟨l₁, l₂, hld, -⟩ := lookup_decomp l k i h
  rw [hld]
  exact List.mem_append_right _ (List.mem_cons_self _ _)

theorem lookupPath_initial_none (r : String) (rs : List String)
    (h : pathsDisjoint pcPath ("product" :: r :: rs) = true) :
    lookupPath initialPayload ("product" :: r :: rs) = none := by
  have hr : r ≠ "custom_attributes" := by
    intro hcon
    subst hcon
    rw [show pcPath = "product" :: ["custom_attributes"] from rfl,
      pathsDisjoint_cons_same] at h
    cases rs with
    | nil => simp [pathsDisjoint, leadsInto] at h
    | cons a l =>
      rw [pathsDisjoint_cons_same] at h
      simp [pathsDisjoint, leadsInto] at h
  have hb : (r == "custom_attributes") = false := beq_eq_false_iff_ne.mpr hr
  cases rs with
  | nil => simp [initialPayload, lookupPath, List.lookup, hb]
  | cons a l => simp [initialPayload, lookupPath, List.lookup, hb]

/-- A successful transform leaves every path untouched that no
path-section entry targets and that stays clear of the flat list. -/
theorem untouched_path_of_ok (m : Mapping) (src : Obj) (p : Obj) (q : List String)
    (hinit : lookupPath initialPayload q = none)
    (hpc : pathsDisjoint pcPath q = true)
    (hall : ∀ sec ∈ sectionsList, sec ≠ "customAttributes" →
      ∀ e ∈ getSection m sec,
        pathsDisjoint (destPath sec e.1) q = true
        ∨ (match e.2 with
          | Instruction.fieldRef n => isAbsent (lookupField src n) = true
          | Instruction.resolver f =>
            match f src with
            | Except.ok v => isAbsent v = true
            | Except.error _ => True))
    (htr : transform ⟨m⟩ src = Except.ok p) :
    lookupPath p q = none := by
  obtain ⟨hfe, hp⟩ := transform_ok_parts m src p htr
  subst hp
  have hstepP : ∀ sec, (sec = "core" ∨ sec = "extensionAttributes") →
      ∀ e ∈ getSection m sec, ∀ p',
      lookupPath (payloadStepA src sec p' e) q = lookupPath p' q := by
    intro sec hsec e he p'
    have hne : sec ≠ "customAttributes" := by
      rcases hsec with rfl | rfl <;> decide
    have hmemS : sec ∈ sectionsList := by
      rcases hsec with rfl | rfl <;> simp [sectionsList]
    have hcp : commitPath sec e.1 = destPath sec e.1 := by
      unfold commitPath; rw [if_neg hne]
    have h := hall sec hmemS hne e he
    refine payloadStepA_preserve src sec q e ?_ p'
    obtain ⟨k0, i0⟩ := e
    cases i0 with
    | fieldRef n =>
      rcases h with hdis | habs
      · exact Or.inr (hcp ▸ hdis)
      · exact Or.inl habs
    | resolver f => trivial
  have hcustomP : ∀ e ∈ getSection m "customAttributes", ∀ p',
      lookupPath (payloadStepA src "customAttributes" p' e) q = lookupPath p' q := by
    intro e he p'
    refine payloadStepA_preserve src "customAttributes" q e ?_ p'
    obtain ⟨k0, i0⟩ := e
    cases i0 with
    | fieldRef n => exact Or.inr (by rw [commitPath_custom]; exact hpc)
    | resolver f => trivial
  have hpayload : lookupPath (payloadA m src) q = none := by
    rw [payloadA_decomp,
      foldl_lookup_preserve _ q _ _ (fun e he p' => hcustomP e he p'),
      foldl_lookup_preserve _ q _ _
        (fun e he p' => hstepP "extensionAttributes" (Or.inr rfl) e he p'),
      foldl_lookup_preserve _ q _ _
        (fun e he p' => hstepP "core" (Or.inl rfl) e he p')]
    exact hinit
  rw [applyDeferred_preserve q _ _ ?_]
  · exact hpayload
  · intro d hd
    obtain ⟨hds, f', hmem', hres'⟩ := (mem_defsA m src d).mp hd
    cases hde : d.2.2 with
    | error e => trivial
    | ok v' =>
      rw [hres'] at hde
      simp only [sectionsList, List.mem_cons, List.not_mem_nil, or_false] at hds
      rcases hds with h1 | h2 | h3
      · rw [h1] at hmem'
        have h := hall "core" (by simp [sectionsList]) (by decide)
          (d.2.1, Instruction.resolver f') hmem'
        rcases h with hdis | habs
        · refine Or.inr ?_
          rw [show commitPath d.1 d.2.1 = destPath "core" d.2.1 from by
            rw [h1, commitPath_core]]
          exact hdis
        · simp only at habs
          rw [hde] at habs
          exact Or.inl habs
      · rw [h2] at hmem'
        have h := hall "extensionAttributes" (by simp [sectionsList]) (by decide)
          (d.2.1, Instruction.resolver f') hmem'
        rcases h with hdis | habs
        · refine Or.inr ?_
          rw [show commitPath d.1 d.2.1 = destPath "extensionAttributes" d.2.1 from by
            rw [h2, commitPath_ext]]
          exact hdis
        · simp only at habs
          rw [hde] at habs
          exact Or.inl habs
      · refine Or.inr ?_
        rw [show commitPath d.1 d.2.1 = pcPath from by rw [h3, commitPath_custom]]
        exact hpc

theorem attrCodes_of_flat (p : Obj) (rs : List Value)
    (h : lookupPath p pcPath = some (Value.vArr rs)) :
    attrCodes p = rs.filterMap (fun x =>
      match x with
      | Value.vObj fs =>
        match fs.lookup "attribute_code" with
        | some (Value.vStr c) => some c
        | _ => none
      | _ => none) := by
  simp [attrCodes, h]

theorem mem_fieldRefRecords (src : Obj) (l : Entries) (x : Value)
    (hx : x ∈ fieldRefRecords src l) :
    ∃ e ∈ l, ∃ n, e.2 = Instruction.fieldRef n
      ∧ isAbsent (lookupField src n) = false
      ∧ x = attrRecord e.1 (lookupField src n) := by
  simp only [fieldRefRecords, List.mem_filterMap] at hx
  obtain ⟨⟨k0, i0⟩, hi, hmk⟩ := hx
  cases i0 with
  | fieldRef n =>
    by_cases ha : isAbsent (lookupField src n) = true
    · simp [ha] at hmk
    · have ha' : isAbsent (lookupField src n) = false := by simpa using ha
      simp only [ha', if_false, Bool.false_eq_true, Option.some_inj] at hmk
      exact ⟨(k0, Instruction.fieldRef n), hi, n, rfl, ha', hmk.symm⟩
  | resolver f => simp at hmk

theorem mem_resolverRecords (src : Obj) (l : Entries) (x : Value)
    (hx : x ∈ resolverRecords src l) :
    ∃ e ∈ l, ∃ f, e.2 = Instruction.resolver f
      ∧ ∃ v', f src = Except.ok v' ∧ isAbsent v' = false ∧ x = attrRecord e.1 v' := by
  simp only [resolverRecords, List.mem_filterMap] at hx
  obtain ⟨⟨k0, i0⟩, hi, hmk⟩ := hx
  cases i0 with
  | fieldRef n => simp at hmk
  | resolver f =>
    cases hf : f src with
    | ok v' =>
      simp only [hf] at hmk
      by_cases ha : isAbsent v' = true
      · simp [ha] at hmk
      · have ha' : isAbsent v' = false := by simpa using ha
        simp only [ha', if_false, Bool.false_eq_true, Option.some_inj] at hmk
        exact ⟨(k0, Instruction.resolver f), hi, f, rfl, v', hf, ha', hmk.symm⟩
    | error e =>
      simp only [hf] at hmk
      exact absurd hmk (by simp)

theorem attrRecord_code_extract (c : String) (v : Value) :
    (match attrRecord c v with
      | Value.vObj fs =>
        match fs.lookup "attribute_code" with
        | some (Value.vStr c') => some c'
        | _ => none
      | _ => none) = some c := rfl

/-- Removing an entry whose resolution is absent leaves the whole
transform result unchanged: the entry commits nothing and raises
nothing. -/
theorem removeEntry_transform_eq (m : Mapping) (src : Obj) (s k : String)
    (instr : Instruction) (v : Value)
    (hs : s ∈ sectionsList)
    (hlk : (getSection m s).lookup k = some instr)
    (hres : resolveOf instr src = Except.ok v)
    (habs : isAbsent v = true) :
    transform ⟨m⟩ src = transform ⟨removeEntry m s k⟩ src := by
  obtain ⟨l₁, l₂, hld, hl₁⟩ := lookup_decomp _ k instr hlk
  have herase : eraseEntry (getSection m s) k = l₁ ++ l₂ := by
    rw [hld]; exact eraseEntry_append l₁ l₂ k instr hl₁
  have hget : ∀ sec, getSection (removeEntry m s k) sec
      = if sec = s then l₁ ++ l₂ else getSection m sec := by
    intro sec
    rw [getSection_removeEntry]
    by_cases h : sec = s
    · rw [if_pos h, if_pos h, h, herase]
    · rw [if_neg h, if_neg h]
  have hstep_id : ∀ p', payloadStepA src s p' (k, instr) = p' := by
    intro p'
    cases instr with
    | fieldRef name =>
      have hv : lookupField src name = v := by simpa [resolveOf] using hres
      simp [payloadStepA, hv, habs]
    | resolver f => rfl
  have hfold_id : ∀ p₀, (getSection m s).foldl (payloadStepA src s) p₀
      = (l₁ ++ l₂).foldl (payloadStepA src s) p₀ := by
    intro p₀
    rw [hld, List.foldl_append, List.foldl_cons, hstep_id, ← List.foldl_append]
  have hs3 : s = "core" ∨ s = "extensionAttributes" ∨ s = "customAttributes" := by
    simpa [sectionsList] using hs
  have hpayA : payloadA (removeEntry m s k) src = payloadA m src := by
    rw [payloadA_decomp, payloadA_decomp]
    rcases hs3 with rfl | rfl | rfl
    · rw [hget "core", hget "extensionAttributes", hget "customAttributes",
        if_pos rfl, if_neg (by decide), if_neg (by decide), ← hfold_id]
    · rw [hget "core", hget "extensionAttributes", hget "customAttributes",
        if_neg (by decide), if_pos rfl, if_neg (by decide), ← hfold_id]
    · rw [hget "core", hget "extensionAttributes", hget "customAttributes",
        if_neg (by decide), if_neg (by decide), if_pos rfl, ← hfold_id]
  cases instr with
  | fieldRef name =>
    have hdEq : defsOfEntries src s (getSection m s)
        = defsOfEntries src s (l₁ ++ l₂) := by
      rw [hld, defsOfEntries_append, defsOfEntries_append]
      simp [defsOfEntries, List.filterMap_cons]
    have hdefsA : defsA (removeEntry m s k) src = defsA m src := by
      rw [defsA_decomp, defsA_decomp]
      rcases hs3 with rfl | rfl | rfl
      · rw [hget "core", hget "extensionAttributes", hget "customAttributes",
          if_pos rfl, if_neg (by decide), if_neg (by decide), ← hdEq]
      · rw [hget "core", hget "extensionAttributes", hget "customAttributes",
          if_neg (by decide), if_pos rfl, if_neg (by decide), ← hdEq]
      · rw [hget "core", hget "extensionAttributes", hget "customAttributes",
          if_neg (by decide), if_neg (by decide), if_pos rfl, ← hdEq]
    rw [transform_eq2, transform_eq2, hdefsA, hpayA]
  | resolver f =>
    have hv : f src = Except.ok v := by simpa [resolveOf] using hres
    have hdmid : defsOfEntries src s (getSection m s)
        = defsOfEntries src s l₁ ++ (s, k, f src) :: defsOfEntries src s l₂ := by
      rw [hld, defsOfEntries_append]
      rw [show defsOfEntries src s ((k, Instruction.resolver f) :: l₂)
          = (s, k, f src) :: defsOfEntries src s l₂ from by
        simp [defsOfEntries, List.filterMap_cons]]
    have hdrem : defsOfEntries src s (l₁ ++ l₂)
        = defsOfEntries src s l₁ ++ defsOfEntries src s l₂ :=
      defsOfEntries_append src s l₁ l₂
    have hmid22 : ((s, k, f src) : Deferred).2.2 = Except.ok v := hv
    rw [transform_eq2, transform_eq2, hpayA]
    rcases hs3 with rfl | rfl | rfl
    · have hA : defsA m src
          = defsOfEntries src "core" l₁ ++ ("core", k, f src)
            :: (defsOfEntries src "core" l₂
              ++ (defsOfEntries src "extensionAttributes" (getSection m "extensionAttributes")
              ++ defsOfEntries src "customAttributes" (getSection m "customAttributes"))) := by
        rw [defsA_decomp, hdmid]
        simp [List.append_assoc]
      have hA' : defsA (removeEntry m "core" k) src
          = defsOfEntries src "core" l₁
            ++ (defsOfEntries src "core" l₂
              ++ (defsOfEntries src "extensionAttributes" (getSection m "extensionAttributes")
              ++ defsOfEntries src "customAttributes" (getSection m "customAttributes"))) := by
        rw [defsA_decomp, hget "core", hget "extensionAttributes", hget "customAttributes",
          if_pos rfl, if_neg (by decide), if_neg (by decide), hdrem]
        simp [List.append_assoc]
      rw [hA, hA', firstError_middle_ok _ v hmid22,
        applyDeferred_middle_absent _ v hmid22 habs]
    · have hA : defsA m src
          = (defsOfEntries src "core" (getSection m "core")
              ++ defsOfEntries src "extensionAttributes" l₁)
            ++ ("extensionAttributes", k, f src)
            :: (defsOfEntries src "extensionAttributes" l₂
              ++ defsOfEntries src "customAttributes" (getSection m "customAttributes")) := by
        rw [defsA_decomp, hdmid]
        simp [List.append_assoc]
      have hA' : defsA (removeEntry m "extensionAttributes" k) src
          = (defsOfEntries src "core" (getSection m "core")
              ++ defsOfEntries src "extensionAttributes" l₁)
            ++ (defsOfEntries src "extensionAttributes" l₂
              ++ defsOfEntries src "customAttributes" (getSection m "customAttributes")) := by
        rw [defsA_decomp, hget "core", hget "extensionAttributes", hget "customAttributes",
          if_neg (by decide), if_pos rfl, if_neg (by decide), hdrem]
        simp [List.append_assoc]
      rw [hA, hA', firstError_middle_ok _ v hmid22,
        applyDeferred_middle_absent _ v hmid22 habs]
    · have hA : defsA m src
          = (defsOfEntries src "core" (getSection m "core")
              ++ (defsOfEntries src "extensionAttributes" (getSection m "extensionAttributes")
              ++ defsOfEntries src "customAttributes" l₁))
            ++ ("customAttributes", k, f src)
            :: defsOfEntries src "customAttributes" l₂ := by
        rw [defsA_decomp, hdmid]
        simp [List.append_assoc]
      have hA' : defsA (removeEntry m "customAttributes" k) src
          = (defsOfEntries src "core" (getSection m "core")
              ++ (defsOfEntries src "extensionAttributes" (getSection m "extensionAttributes")
              ++ defsOfEntries src "customAttributes" l₁))
            ++ defsOfEntries src "customAttributes" l₂ := by
        rw [defsA_decomp, hget "core", hget "extensionAttributes", hget "customAttributes",
          if_neg (by decide), if_neg (by decide), if_pos rfl, hdrem]
        simp [List.append_assoc]
      rw [hA, hA', firstError_middle_ok _ v hmid22,
        applyDeferred_middle_absent _ v hmid22 habs]

/-- C3 (confirmed): an entry whose instruction resolves to the absent
sentinel (`null` or `undefined`) contributes nothing: the transform
result is identical to the transform of the configuration with that
entry removed (in particular no error arises from the pair), and —
under the spec's well-formedness invariant that no two entries target
overlapping destinations — the returned output (when one is returned)
holds no record with that attribute code and nothing at that
destination path: no `null` placeholder is ever written. -/
theorem c3_absent_contributes_nothing (m : Mapping) (src : Obj) (s k : String)
    (instr : Instruction) (v : Value)
    (hs : s ∈ sectionsList)
    (hlk : (getSection m s).lookup k = some instr)
    (hres : resolveOf instr src = Except.ok v)
    (habs : isAbsent v = true)
    (hnod : wfKeys m)
    (hfreshC : s = "customAttributes" →
      ∀ q ∈ pairPaths m, pathsDisjoint q pcPath = true)
    (hfreshP : s ≠ "customAttributes" →
      (∀ q ∈ pairPaths (removeEntry m s k), pathsDisjoint q (destPath s k) = true)
      ∧ pathsDisjoint pcPath (destPath s k) = true) :
    transform ⟨m⟩ src = transform ⟨removeEntry m s k⟩ src
    ∧ ∀ p, transform ⟨m⟩ src = Except.ok p →
        (s = "customAttributes" → k ∉ attrCodes p)
        ∧ (s ≠ "customAttributes" → lookupPath p (destPath s k) = none) := by
  refine ⟨removeEntry_transform_eq m src s k instr v hs hlk hres habs, ?_⟩
  intro p htr
  obtain ⟨l₁, l₂, hld, hl₁⟩ := lookup_decomp _ k instr hlk
  have herase : eraseEntry (getSection m s) k = l₁ ++ l₂ := by
    rw [hld]; exact eraseEntry_append l₁ l₂ k instr hl₁
  have hget : ∀ sec, getSection (removeEntry m s k) sec
      = if sec = s then l₁ ++ l₂ else getSection m sec := by
    intro sec
    rw [getSection_removeEntry]
    by_cases h : sec = s
    · rw [if_pos h, if_pos h, h, herase]
    · rw [if_neg h, if_neg h]
  have hourmem : (k, instr) ∈ getSection m s := lookup_mem _ _ _ hlk
  have hmem_other : ∀ e : String × Instruction, e ∈ getSection m s →
      e.1 ≠ k → e ∈ l₁ ++ l₂ := by
    intro e he hek
    rw [hld] at he
    rcases List.mem_append.mp he with h1 | h2
    · exact List.mem_append_left _ h1
    · rcases List.mem_cons.mp h2 with rfl | h3
      · exact absurd rfl hek
      · exact List.mem_append_right _ h3
  constructor
  · -- flat-attribute case: no record with that code appears
    intro hcs
    subst hcs
    have hflat := flatList_of_ok m src p (hfreshC rfl) htr
    rw [attrCodes_of_flat p _ hflat]
    intro hmemk
    obtain ⟨x, hx, hgx⟩ := List.mem_filterMap.mp hmemk
    have hnd := hnod "customAttributes" (by simp [sectionsList])
    rcases List.mem_append.mp hx with hfr | hrr
    · obtain ⟨e, he, n, hen, hna, hxe⟩ := mem_fieldRefRecords src _ x hfr
      rw [hxe, attrRecord_code_extract] at hgx
      have hek : e.1 = k := by simpa using hgx
      obtain ⟨ke, ie⟩ := e
      simp only at hek hen
      subst hek
      subst hen
      have huniq := nodup_unique_entry _ ke _ _ hnd he hourmem
      cases instr with
      | fieldRef name =>
        have hnn : n = name := by
          cases huniq; rfl
        have hv : lookupField src name = v := by simpa [resolveOf] using hres
        rw [hnn, hv, habs] at hna
        exact absurd hna (by simp)
      | resolver f => exact Instruction.noConfusion huniq
    · obtain ⟨e, he, f', hef, v', hfv, hna, hxe⟩ := mem_resolverRecords src _ x hrr
      rw [hxe, attrRecord_code_extract] at hgx
      have hek : e.1 = k := by simpa using hgx
      obtain ⟨ke, ie⟩ := e
      simp only at hek hef
      subst hek
      subst hef
      have huniq := nodup_unique_entry _ ke _ _ hnd he hourmem
      cases instr with
      | fieldRef name => exact Instruction.noConfusion huniq
      | resolver f =>
        have hff : f' = f := by cases huniq; rfl
        have hv : f src = Except.ok v := by simpa [resolveOf] using hres
        rw [hff, hv] at hfv
        cases hfv
        rw [habs] at hna
        exact absurd hna (by simp)
  · -- path case: the destination path is untouched
    intro hns
    obtain ⟨hfr, hpcd⟩ := hfreshP hns
    obtain ⟨r, rs, hdp⟩ := destPath_head s k
    refine untouched_path_of_ok m src p (destPath s k) ?_ hpcd ?_ htr
    · rw [hdp]
      exact lookupPath_initial_none r rs (hdp ▸ hpcd)
    · intro sec hsecL hsecC e he
      by_cases hsk : sec = s ∧ e.1 = k
      · -- this is the absent entry itself
        obtain ⟨hsecS, hek⟩ := hsk
        subst hsecS
        refine Or.inr ?_
        obtain ⟨ke, ie⟩ := e
        simp only at hek
        subst hek
        have hnd := hnod sec hsecL
        have huniq := nodup_unique_entry _ ke _ _ hnd he hourmem
        subst huniq
        cases ie with
        | fieldRef name =>
          have hv : lookupField src name = v := by simpa [resolveOf] using hres
          simpa [hv] using habs
        | resolver f =>
          have hv : f src = Except.ok v := by simpa [resolveOf] using hres
          simpa [hv] using habs
      · -- any other entry writes to a disjoint destination
        refine Or.inl ?_
        have hsec2 : sec = "core" ∨ sec = "extensionAttributes" := by
          have : sec = "core" ∨ sec = "extensionAttributes" ∨ sec = "customAttributes" := by
            simpa [sectionsList] using hsecL
          rcases this with h | h | h
          · exact Or.inl h
          · exact Or.inr h
          · exact absurd h hsecC
        have hememR : e ∈ getSection (removeEntry m s k) sec := by
          rw [hget]
          by_cases hss : sec = s
          · rw [if_pos hss]
            refine hmem_other e (hss ▸ he) ?_
            intro hek
            exact hsk ⟨hss, hek⟩
          · rw [if_neg hss]
            exact he
        refine hfr _ ?_
        rcases hsec2 with rfl | rfl
        · exact List.mem_append_left _ (List.mem_map.mpr ⟨e, hememR, rfl⟩)
        · exact List.mem_append_right _ (List.mem_map.mpr ⟨e, hememR, rfl⟩)

/-- Witness for C3: the extension entry `gone` of `mAbsent` resolves to
`null`, and removing it leaves the transform result unchanged. -/
theorem c3_absent_contributes_nothing_witness :
    transform ⟨mAbsent⟩ srcX1
      = transform ⟨removeEntry mAbsent "extensionAttributes" "gone"⟩ srcX1 :=
  (c3_absent_contributes_nothing mAbsent srcX1 "extensionAttributes" "gone"
    (Instruction.resolver resNull) Value.vNull
    (by simp [sectionsList])
    rfl rfl rfl
    (by
      intro sec hsec
      simp only [sectionsList, List.mem_cons, List.not_mem_nil, or_false] at hsec
      rcases hsec with rfl | rfl | rfl
      · rw [show sectionKeys (getSection mAbsent "core") = ["sku"] from rfl]
        decide
      · rw [show sectionKeys (getSection mAbsent "extensionAttributes")
            = ["gone"] from rfl]
        decide
      · rw [show sectionKeys (getSection mAbsent "customAttributes") = [] from rfl]
        decide)
    (fun h => absurd h (by decide))
    (fun _ => ⟨by
      intro q hq
      rw [show pairPaths (removeEntry mAbsent "extensionAttributes" "gone")
          = [["product", "sku"]] from rfl] at hq
      cases hq with
      | head => rfl
      | tail _ h => exact absurd h (List.not_mem_nil _), rfl⟩)).1

end ErpMagento
